import Mathlib

/-!
Verification of the spoonbill flattening engine (`spoonbill/flatten.py`,
`spoonbill/utils.py`) against its natural-language specification.

The Python modules are shallowly embedded below: Python dicts become ordered
association lists (`dget`/`dset`/`dmodify` reproduce lookup, update-or-append
and in-place update), Python strings are Lean `String`s with `str.split`,
`str.replace`, `in` and slicing re-implemented over character lists, and code
that can raise becomes `Except PyErr`.  The table/column model (`spoonbill/
spec.py`) and the `JOINABLE` constant (`spoonbill/common.py`) are not part of
the available sources; the definitions that stand in for them are marked
`Modelled from the spec:` in their doc comments.
-/

set_option autoImplicit false

namespace Spoonbill

/-- Python runtime errors that the embedded code can raise. -/
inductive PyErr where
  | keyError (key : String)
  | typeError
  | indexError
  | attributeError
  deriving DecidableEq, Repr

/-! ### Ordered dictionaries as association lists

Python 3.7+ dicts preserve insertion order; `dset` updates an existing key in
place and appends a fresh key at the end, exactly like `d[k] = v`. -/

/-- Lookup `d.get(k)` in an insertion-ordered dict. -/
def dget {α : Type} : List (String × α) → String → Option α
  | [], _ => none
  | (k', v) :: rest, k => if k' = k then some v else dget rest k

/-- Assignment `d[k] = v`: update in place if present, else append. -/
def dset {α : Type} : List (String × α) → String → α → List (String × α)
  | [], k, v => [(k, v)]
  | (k', v') :: rest, k, v =>
      if k' = k then (k, v) :: rest else (k', v') :: dset rest k v

/-- In-place update of an existing entry; a no-op when the key is absent
(the Python code only does this through a live object reference, so the key
is always present there). -/
def dmodify {α : Type} : List (String × α) → String → (α → α) → List (String × α)
  | [], _, _ => []
  | (k', v') :: rest, k, f =>
      if k' = k then (k', f v') :: rest else (k', v') :: dmodify rest k f

/-- Removal `d.pop(k, default)`: drop the entry if present. -/
def dremove {α : Type} : List (String × α) → String → List (String × α)
  | [], _ => []
  | (k', v') :: rest, k => if k' = k then rest else (k', v') :: dremove rest k

/-- Key list of a dict, in insertion order. -/
def dkeys {α : Type} (l : List (String × α)) : List String := l.map Prod.fst

/-- Membership test `k in d`. -/
def dhas {α : Type} (l : List (String × α)) (k : String) : Bool := (dget l k).isSome

/-! ### Python string operations, re-implemented over character lists -/

/-- Fuel-indexed scanner behind `str.split(sep)` for a non-empty separator
`c0 :: ct`: walk the text, and at each position either consume a full
separator occurrence (emitting the accumulated chunk) or move one character
into the accumulator.  The fuel only bounds recursion depth; it is always
instantiated with the text length, which suffices because every step
consumes at least one character. -/
def splitCharsCore (c0 : Char) (ct : List Char) : Nat → List Char → List Char → List (List Char)
  | _, [], acc => [acc.reverse]
  | 0, _ :: _, acc => [acc.reverse]
  | fuel + 1, c :: rest, acc =>
      if (c0 :: ct).isPrefixOf (c :: rest) then
        acc.reverse :: splitCharsCore c0 ct fuel (List.drop (ct.length + 1) (c :: rest)) []
      else
        splitCharsCore c0 ct fuel rest (c :: acc)

/-- The split scanner at its canonical (always sufficient) fuel. -/
def splitCharsAux (c0 : Char) (ct : List Char) (l acc : List Char) : List (List Char) :=
  splitCharsCore c0 ct l.length l acc

theorem splitCharsCore_fuel_irrelevant (c0 : Char) (ct : List Char) :
    ∀ (fuel1 fuel2 : Nat) (l acc : List Char), l.length ≤ fuel1 → l.length ≤ fuel2 →
      splitCharsCore c0 ct fuel1 l acc = splitCharsCore c0 ct fuel2 l acc := by
  intro fuel1
  induction fuel1 with
  | zero =>
    intro fuel2 l acc h1 _
    have hl : l = [] := List.eq_nil_of_length_eq_zero (Nat.le_zero.mp h1)
    subst hl
    cases fuel2 <;> rfl
  | succ f1 ih =>
    intro fuel2 l acc h1 h2
    cases l with
    | nil => cases fuel2 <;> rfl
    | cons c rest =>
      cases fuel2 with
      | zero => exact absurd h2 (by simp)
      | succ f2 =>
        simp only [List.length_cons, Nat.succ_le_succ_iff] at h1 h2
        show (if (c0 :: ct).isPrefixOf (c :: rest) then
            acc.reverse :: splitCharsCore c0 ct f1 (List.drop (ct.length + 1) (c :: rest)) []
          else splitCharsCore c0 ct f1 rest (c :: acc)) =
          (if (c0 :: ct).isPrefixOf (c :: rest) then
            acc.reverse :: splitCharsCore c0 ct f2 (List.drop (ct.length + 1) (c :: rest)) []
          else splitCharsCore c0 ct f2 rest (c :: acc))
        by_cases hp : (c0 :: ct).isPrefixOf (c :: rest)
        · simp only [hp, if_true]
          have hd : (List.drop (ct.length + 1) (c :: rest)).length ≤ f1 := by
            simp only [List.length_drop, List.length_cons]
            omega
          have hd2 : (List.drop (ct.length + 1) (c :: rest)).length ≤ f2 := by
            simp only [List.length_drop, List.length_cons]
            omega
          rw [ih f2 _ [] hd hd2]
        · simp only [hp, if_false]
          exact ih f2 rest (c :: acc) h1 h2

theorem splitCharsAux_nil (c0 : Char) (ct acc : List Char) :
    splitCharsAux c0 ct [] acc = [acc.reverse] := rfl

theorem splitCharsAux_cons (c0 : Char) (ct : List Char) (c : Char) (rest acc : List Char) :
    splitCharsAux c0 ct (c :: rest) acc =
      if (c0 :: ct).isPrefixOf (c :: rest) then
        acc.reverse :: splitCharsAux c0 ct (List.drop (ct.length + 1) (c :: rest)) []
      else
        splitCharsAux c0 ct rest (c :: acc) := by
  show (if (c0 :: ct).isPrefixOf (c :: rest) then
      acc.reverse :: splitCharsCore c0 ct rest.length (List.drop (ct.length + 1) (c :: rest)) []
    else splitCharsCore c0 ct rest.length rest (c :: acc)) = _
  by_cases hp : (c0 :: ct).isPrefixOf (c :: rest)
  · simp only [hp, if_true, splitCharsAux]
    rw [splitCharsCore_fuel_irrelevant c0 ct rest.length (List.drop (ct.length + 1) (c :: rest)).length]
    · simp only [List.length_drop, List.length_cons]
      omega
    · exact le_refl _
  · simp only [hp, if_false, splitCharsAux, Bool.false_eq_true]

/-- Python `s.split(sep)`.  Python raises `ValueError` on an empty separator;
no caller in the embedded code passes one, so that case just returns `[s]`. -/
def pySplit (s sep : String) : List String :=
  match sep.data with
  | [] => [s]
  | c :: cs => (splitCharsAux c cs s.data []).map (fun l => String.mk l)

/-- Python `sep.join(l)` for a list of strings. -/
def pyJoin (sep : String) : List String → String
  | [] => ""
  | [x] => x
  | x :: rest => x ++ sep ++ pyJoin sep rest

/-- Occurrence test behind Python's substring operator `sub in s`. -/
def containsSub (sub : List Char) : List Char → Bool
  | [] => sub.isEmpty
  | c :: rest => sub.isPrefixOf (c :: rest) || containsSub sub rest

/-- Python `sub in s` on strings (substring containment). -/
def pyIn (sub s : String) : Bool := containsSub sub.data s.data

/-- Fuel-indexed scanner behind `str.replace(old, new)` for a non-empty
pattern `p0 :: pt`: replace each non-overlapping occurrence, left to right.
As with the split scanner, the fuel is always instantiated with the text
length and every step consumes at least one character. -/
def replaceCharsCore (p0 : Char) (pt : List Char) (rep : List Char) : Nat → List Char → List Char
  | _, [] => []
  | 0, c :: rest => c :: rest
  | fuel + 1, c :: rest =>
      if (p0 :: pt).isPrefixOf (c :: rest) then
        rep ++ replaceCharsCore p0 pt rep fuel (List.drop (pt.length + 1) (c :: rest))
      else
        c :: replaceCharsCore p0 pt rep fuel rest

/-- The replace scanner at its canonical (always sufficient) fuel. -/
def replaceCharsAux (p0 : Char) (pt : List Char) (rep : List Char) (l : List Char) : List Char :=
  replaceCharsCore p0 pt rep l.length l

/-- Python `s.replace(old, new)`.  The embedded callers never pass an empty
pattern, so that case returns `s` unchanged. -/
def pyReplace (s pat rep : String) : String :=
  match pat.data with
  | [] => s
  | c :: cs => String.mk (replaceCharsAux c cs rep.data s.data)

/-- Python `s.isdigit()` restricted to ASCII digits (the pointers handled by
the code only ever contain ASCII array indices). -/
def pyIsDigit (s : String) : Bool := !s.data.isEmpty && s.data.all (fun c => c.isDigit)

/-- Python `s.startswith(p)`. -/
def pyStartswith (s p : String) : Bool := p.data.isPrefixOf s.data

/-- Python `s[:n]` for a non-negative slice bound. -/
def pyTake (s : String) (n : Nat) : String := String.mk (s.data.take n)

/-! ### JSON values (the hierarchical records being flattened) -/

/-- Hierarchical input values: ordered objects, ordered arrays and the four
scalar shapes the engine distinguishes. -/
inductive Json where
  | str (s : String)
  | num (n : Int)
  | bool (b : Bool)
  | null
  | obj (fields : List (String × Json))
  | arr (elems : List Json)
  deriving Repr

/-- Python truthiness of a value (`if item:`). -/
def jTruthy : Json → Bool
  | .str s => s ≠ ""
  | .num n => n ≠ 0
  | .bool b => b
  | .null => false
  | .obj fs => !fs.isEmpty
  | .arr l => !l.isEmpty

/-- Python `str(x)` / f-string rendering of a value.  Scalars follow Python
exactly; composite values never reach a string context in the embedded code,
so they get a placeholder rendering. -/
def pyStr : Json → String
  | .str s => s
  | .num n => toString n
  | .bool b => if b then "True" else "False"
  | .null => "None"
  | .obj _ => "<dict>"
  | .arr _ => "<list>"

mutual
/-- Structural size of a value, used as the termination measure of the
traversal stack. -/
def jsize : Json → Nat
  | .obj fs => 1 + jsizeFields fs
  | .arr l => 1 + jsizeList l
  | _ => 1

/-- Total size of an object's field values. -/
def jsizeFields : List (String × Json) → Nat
  | [] => 0
  | (_, v) :: rest => jsize v + jsizeFields rest

/-- Total size of an array's elements. -/
def jsizeList : List Json → Nat
  | [] => 0
  | v :: rest => jsize v + jsizeList rest
end

/-! ### The table/column model

`spoonbill/spec.py` is not among the available sources; `Column` and `Table`
below are modelled from §3 of the spec ("Table", "Column"), with the few
method behaviours the flattening code relies on modelled from the spec
sections that describe them. -/

/-- Modelled from the spec: a column of a table — identifier (a
table-relative pointer, its own identity), display title, schema type tag and
the per-column hit counter. -/
structure Column where
  id : String
  title : String
  type : String
  hits : Nat
  deriving DecidableEq, Repr

/-- Modelled from the spec: the per-table record fields of §3 except the
parent link, which lives in `Table` so that the parent chain is a tree by
construction. -/
structure TableData where
  name : String
  path : List String
  types : List (String × String)
  arrays : List (String × Nat)
  columns : List (String × Column)
  combined_columns : List (String × Column)
  titles : List (String × String)
  total_rows : Nat
  child_tables : List String
  deriving Repr

/-- Modelled from the spec: a table together with its (optional) parent
table; root tables have no parent and cycles are impossible by
construction. -/
inductive Table where
  | mk (data : TableData) (parent : Option Table)

/-- Field data of a table. -/
def Table.data : Table → TableData
  | .mk d _ => d

/-- Parent link of a table. -/
def Table.parent : Table → Option Table
  | .mk _ p => p

def Table.name (t : Table) : String := t.data.name

def Table.path (t : Table) : List String := t.data.path

def Table.types (t : Table) : List (String × String) := t.data.types

def Table.arrays (t : Table) : List (String × Nat) := t.data.arrays

def Table.columns (t : Table) : List (String × Column) := t.data.columns

def Table.combined_columns (t : Table) : List (String × Column) :=
  t.data.combined_columns

def Table.titles (t : Table) : List (String × String) := t.data.titles

def Table.total_rows (t : Table) : Nat := t.data.total_rows

def Table.child_tables (t : Table) : List String := t.data.child_tables

/-- Modelled from the spec: `isRoot` is true exactly for tables rooted at the
top-level record, which are the tables with no parent (§3). -/
def Table.is_root (t : Table) : Bool := t.parent.isNone

/-- Replace the column-related state of a table (used by the embedding of
`recalculate_headers`, which rewrites `columns`, `combined_columns` and
`titles` and recurses into the parent). -/
def Table.withCols (t : Table) (cols cc : List (String × Column))
    (titles : List (String × String)) (parent : Option Table) : Table :=
  .mk { t.data with columns := cols, combined_columns := cc, titles := titles } parent

/-- Update the plain `columns` mapping of a table in place. -/
def Table.updColumns (t : Table) (f : List (String × Column) → List (String × Column)) : Table :=
  .mk { t.data with columns := f t.data.columns } t.parent

/-- Update the `combined_columns` mapping of a table in place. -/
def Table.updCC (t : Table) (f : List (String × Column) → List (String × Column)) : Table :=
  .mk { t.data with combined_columns := f t.data.combined_columns } t.parent

/-- Update the `titles` mapping of a table in place. -/
def Table.updTitles (t : Table) (f : List (String × String) → List (String × String)) : Table :=
  .mk { t.data with titles := f t.data.titles } t.parent

/-! ### Pointer resolution (`spoonbill/utils.py`) -/

/-- Segment-wise longest common prefix of two already-split paths: the source
iterates the shorter list against the longer and stops at the first
mismatching segment. -/
def commonPrefixAux : List String → List String → List String
  | [], _ => []
  | _ :: _, [] => []
  | x :: xs, y :: ys => if x = y then x :: commonPrefixAux xs ys else []

/-- Embedding of `utils.common_prefix`: the longest common sub-path of two
separator-joined paths (the shorter argument is compared against the
longer one, so no index can run out of range). -/
def commonPrefix (path subpath : String) (separator : String := "/") : String :=
  let paths0 := pySplit path separator
  let paths1 := pySplit subpath separator
  let s1 := if paths0.length ≤ paths1.length then paths0 else paths1
  let s2 := if paths0.length ≤ paths1.length then paths1 else paths0
  String.intercalate separator (commonPrefixAux s1 s2)

/-- Abbreviations for known long field names (`utils.ABBREVIATION_KEY`). -/
def ABBREVIATION_KEY : List (String × String) :=
  [("additionalIdentifiers", "ids"),
   ("additionalClassifications", "class"),
   ("documents", "docs")]

/-- Abbreviations for known long table names (`utils.ABBREVIATION_TABLE_NAME`). -/
def ABBREVIATION_TABLE_NAME : List (String × String) :=
  [("contracts_implementation", "implementation"),
   ("contracts_implementation_transactions", "transactions")]

/-- Embedding of `utils.generate_table_name`: deterministic child-table
naming with the abbreviation tables, the substring test `parent_key in
parent_table`, and component truncation once the name reaches 31
characters. -/
def generate_table_name (parent_table parent_key key : String) : String :=
  let key := (dget ABBREVIATION_KEY key).getD key
  let table_name :=
    if pyIn parent_key parent_table then parent_table ++ "_" ++ key
    else parent_table ++ "_" ++ parent_key ++ "_" ++ key
  let table_name := (dget ABBREVIATION_TABLE_NAME table_name).getD table_name
  if 31 ≤ table_name.length then
    if pyIn parent_key parent_table then parent_table ++ "_" ++ pyTake key 5
    else parent_table ++ "_" ++ pyTake parent_key 5 ++ "_" ++ pyTake key 5
  else table_name

/-- Embedding of `utils.generate_row_id`: pure string composition with empty
segments omitted (the Python defaults are `None`, whose truthiness and
rendering coincide with the empty string's here). -/
def generate_row_id (ocid item_id : String) (parent_key : String := "")
    (top_level_id : String := "") : String :=
  let tail := if parent_key ≠ "" then parent_key ++ ":" ++ item_id else item_id
  if top_level_id ≠ "" then ocid ++ "/" ++ top_level_id ++ "/" ++ tail
  else ocid ++ "/" ++ tail

/-- Truthiness of the optional strings handled by `get_pointer` (`None` and
the empty string are falsy). -/
def pyTruthyOptStr : Option String → Bool
  | none => false
  | some s => s ≠ ""

/-- Modelled from the spec: `Table.is_array` — the array pointer of the table
under which `path` lies, if any ("whether the owning table treats the path as
an array boundary", §4.3); containment is the usual longest-common-prefix
test used throughout `utils.py`. -/
def Table.is_array (t : Table) (path : String) : Option String :=
  ((t.arrays.find? (fun kv => commonPrefix kv.1 path = kv.1))).map Prod.fst

/-- Loop of `utils.get_pointer` over the split absolute path: skip numeric
and empty segments, accumulate the prefix until it equals the array pointer,
and report the 1-based `enumerate` index at which the loop stopped. -/
def gpLoop (array separator : String) : List String → String → Nat → String × Nat
  | [], pfx, i => (pfx, i - 1)
  | pth :: rest, pfx, i =>
      if pyIsDigit pth then gpLoop array separator rest pfx (i + 1)
      else if pth = "" then gpLoop array separator rest pfx (i + 1)
      else
        let pfx := pfx ++ separator ++ pth
        if pfx = array then (pfx, i) else gpLoop array separator rest pfx (i + 1)

/-- Embedding of `utils.get_pointer` (the four-positional-parameter version
actually defined in `utils.py`; `separator` and `index` are keyword-only
there).  The `split` parameter is accepted but, as in the source, unused. -/
def get_pointer (table : Table) (abs_path path : String) (split : Bool)
    (separator : String := "/") (index : Option String := none) : String :=
  let array := table.is_array path
  if pyTruthyOptStr index && pyTruthyOptStr array then
    abs_path ++ separator ++ index.getD ""
  else if table.is_root then abs_path
  else if pyTruthyOptStr array then
    let paths := pySplit abs_path separator
    let pi := gpLoop (array.getD "") separator paths "" 1
    let pointer := String.intercalate separator (paths.drop pi.2)
    if pointer ≠ "" then pi.1 ++ separator ++ pointer else pi.1
  else path

/-- Embedding of `utils.get_root`: follow parent links to the root table. -/
def get_root : Table → Table
  | .mk d none => .mk d none
  | .mk _ (some p) => get_root p

/-! ### Dynamic header widening (`utils.recalculate_headers`) -/

/-- The "slot 0" column test of `recalculate_headers`: keys starting with
the separator whose longest common prefix with the zero-slot pointer is
that pointer itself. -/
def zeroPred (zp separator : String) (kv : String × Column) : Bool :=
  pyStartswith kv.1 separator && (commonPrefix kv.1 zp = zp)

/-- The slot-0 column dictionary itself: the comprehension over
`table.combined_columns` filtered by `zeroPred`. -/
def zeroColsOf (cc : List (String × Column)) (zp separator : String) :
    List (String × Column) :=
  cc.filter (zeroPred zp separator)

/-- The cloned columns for slots `1 .. itemLen-1`: each zero-slot column is
cloned with its identifier rewritten to the new slot's pointer and its hit
counter reset to zero. -/
def newColsOf (table : Table) (path bp zp separator : String) (itemLen : Nat)
    (zero_cols : List (String × Column)) : List (String × Column) :=
  (List.range' 1 (itemLen - 1)).foldl (fun acc col_i =>
    let cp := get_pointer table (bp ++ separator ++ toString col_i) path true
    zero_cols.foldl (fun acc2 kv =>
      let col_id := pyReplace kv.2.id zp cp
      dset acc2 col_id { kv.2 with id := col_id, hits := 0 }) acc) []

/-- One step of the local `insert_after_key` of `recalculate_headers`:
copy the current entry into the rebuilt dict and, when its key is
`last_key`, splice in the cloned columns, recording their titles as they
are inserted. -/
def iakStep (ins : List (String × Column)) (last_key : String)
    (st : List (String × Column) × List (String × String)) (kv : String × Column) :
    List (String × Column) × List (String × String) :=
  let st1 := (dset st.1 kv.1 kv.2, st.2)
  if kv.1 = last_key then
    ins.foldl (fun st2 iv => (dset st2.1 iv.1 iv.2, dset st2.2 iv.1 iv.2.title)) st1
  else st1

/-- Embedding of the local `insert_after_key` of `recalculate_headers`:
rebuild the ordered column dict by folding `iakStep` from the empty dict,
threading the title updates the Python closure performs on the table. -/
def insert_after_key (columns ins : List (String × Column)) (last_key : String)
    (titles : List (String × String)) :
    List (String × Column) × List (String × String) :=
  columns.foldl (iakStep ins last_key) ([], titles)

/-- Embedding of `utils.recalculate_headers`: widen the combined columns of
`table` for an array instance `item`, pop the widened columns from `columns`
when the table should be split, and recurse into the parent table.  When no
new columns arise the table is returned unchanged (`last_key` is only read
when `new_cols` is non-empty, in which case `zero_cols` is non-empty too, so
the `getD` default is never used). -/
def recalculate_headers (table : Table) (path abs_path key : String) (item : List Json)
    (should_split : Bool) (separator : String := "/") : Table :=
  match table with
  | .mk d parent =>
    let t := Table.mk d parent
    let bp := abs_path ++ separator ++ key
    let zp := get_pointer t (bp ++ separator ++ "0") path true
    let zero_cols := zeroColsOf t.combined_columns zp separator
    let new_cols := newColsOf t path bp zp separator item.length zero_cols
    if new_cols.isEmpty then t
    else
      let last_key := (dkeys zero_cols).getLast?.getD ""
      let p1 := insert_after_key t.combined_columns new_cols last_key t.titles
      let p2 :=
        if should_split then
          ((zero_cols ++ new_cols).foldl (fun cs kv => dremove cs kv.1) t.columns, p1.2)
        else insert_after_key t.columns new_cols last_key p1.2
      let parent' :=
        match parent with
        | some p => some (recalculate_headers p path abs_path key item should_split separator)
        | none => none
      t.withCols p2.1 p1.1 p2.2 parent'

/-- The cumulative title updates performed by the inner loop of
`insert_after_key` (`table.titles[k] = v.title` for each inserted clone),
written as a standalone fold for use in characterizations of
`insert_after_key`. -/
def titlesFold (ins : List (String × Column)) (ts : List (String × String)) :
    List (String × String) :=
  ins.foldl (fun a iv => dset a iv.1 iv.2.title) ts

/-- Length of a table's parent chain (0 for a root table). -/
def tdepth : Table → Nat
  | .mk _ none => 0
  | .mk _ (some p) => tdepth p + 1

/-- The `base_prefix` of a `recalculate_headers` run. -/
def rcBP (abs_path key sep : String) : String := abs_path ++ sep ++ key

/-- The `zero_prefix` of a `recalculate_headers` run. -/
def rcZP (t : Table) (path abs_path key sep : String) : String :=
  get_pointer t (rcBP abs_path key sep ++ sep ++ "0") path true

/-- The `zero_cols` dict of a `recalculate_headers` run. -/
def rcZ (t : Table) (path abs_path key sep : String) : List (String × Column) :=
  zeroColsOf t.combined_columns (rcZP t path abs_path key sep) sep

/-- The `new_cols` dict of a `recalculate_headers` run. -/
def rcN (t : Table) (path abs_path key sep : String) (itemLen : Nat) :
    List (String × Column) :=
  newColsOf t path (rcBP abs_path key sep) (rcZP t path abs_path key sep) sep itemLen
    (rcZ t path abs_path key sep)

/-- The `last_key` of a `recalculate_headers` run. -/
def rcLK (t : Table) (path abs_path key sep : String) : String :=
  (dkeys (rcZ t path abs_path key sep)).getLast?.getD ""

/-- Decidable single-table well-formedness for header recalculation: the
three ordered dicts of the table carry pairwise-distinct keys, the
identifiers of the freshly cloned columns collide with no existing
combined or plain column, and no clone passes the slot-0 filter (its
common prefix with the zero-slot pointer stops at the array pointer, one
segment short).  Real tables produced by the engine satisfy all of this;
the conditions are computable so that they can be checked on any concrete
table. -/
def recalcLocalOK (t : Table) (path abs_path key : String) (itemLen : Nat)
    (separator : String) : Bool :=
  let zp := rcZP t path abs_path key separator
  let new_cols := rcN t path abs_path key separator itemLen
  decide ((dkeys t.combined_columns).Nodup) &&
  decide ((dkeys t.columns).Nodup) &&
  decide ((dkeys t.titles).Nodup) &&
  new_cols.all (fun kv => !(dhas t.combined_columns kv.1)) &&
  new_cols.all (fun kv => !(dhas t.columns kv.1)) &&
  new_cols.all (fun kv => !(zeroPred zp separator kv))

/-- `recalcLocalOK` along the whole parent chain (the chain
`recalculate_headers` recurses through). -/
def recalcWF : Table → String → String → String → Nat → String → Bool
  | .mk d parent, path, abs_path, key, itemLen, separator =>
    recalcLocalOK (.mk d parent) path abs_path key itemLen separator &&
    (match parent with
     | none => true
     | some p => recalcWF p path abs_path key itemLen separator)

/-! ### Flattener configuration and initialization (`spoonbill/flatten.py`) -/

/-- Modelled from the spec: the scalar-array type tag / join delimiter
`JOINABLE` from the missing `spoonbill/common.py`.  `flatten.py` uses this
one constant both as the type tag compared against `table.types` and as the
join delimiter (`JOINABLE.join(item)`); the spec fixes no concrete value,
only that it is "the fixed delimiter character" (§8), so it is modelled as a
fixed one-character string. -/
def JOINABLE : String := ";"

/-- Embedding of `flatten.TableFlattenConfig` with the source's defaults. -/
structure TableFlattenConfig where
  split : Bool
  pretty_headers : Bool := false
  headers : List (String × String) := []
  only : List String := []
  «repeat» : List String := []
  unnest : List String := []
  name : String := ""
  deriving DecidableEq, Repr

/-- Embedding of `flatten.FlattenOptions`. -/
structure FlattenOptions where
  selection : List (String × TableFlattenConfig)
  count : Bool := false

/-- The flattening engine after initialization.  The Python caches hold
direct `Table` references; shared mutable objects are embedded as a heap —
the `tables` map keyed by table name — and the caches store the referenced
table's name, dereferenced through that heap. -/
structure Flattener where
  options : FlattenOptions
  tables : List (String × Table)
  lookup_cache : List (String × String)
  types_cache : List (String × String)
  path_cache : List (String × String)

/-- Modelled from the spec: `Table.add_column` as used for count columns —
insert a column with the given pointer, title and type into the table's
`columns` and `combined_columns` and record its title (§4.1 step 3), with a
zeroed hit counter. -/
def Table.add_column (t : Table) (path title type : String) : Table :=
  ((t.updColumns (fun cs => dset cs path ⟨path, title, type, 0⟩)).updCC
      (fun cs => dset cs path ⟨path, title, type, 0⟩)).updTitles
    (fun ts => dset ts path title)

/-- Modelled from the spec: `Table.inc_column` — bump the hit counter of the
column at `path` ("increment immediately if the array is non-empty in
statistics gathered so far", §4.1). -/
def Table.inc_column (t : Table) (path : String) : Table :=
  (t.updColumns (fun cs => dmodify cs path (fun c => { c with hits := c.hits + 1 }))).updCC
    (fun cs => dmodify cs path (fun c => { c with hits := c.hits + 1 }))

/-- Mutable state threaded through `Flattener._init`: the (mutated)
selection, the filtered-table dict under construction and the three pointer
caches. -/
structure InitSt where
  selection : List (String × TableFlattenConfig)
  tablesAcc : List (String × Table)
  lookup_cache : List (String × String)
  types_cache : List (String × String)
  path_cache : List (String × String)

/-- Embedding of `Flattener._init_table_cache`: skip zero-row tables, then
register the table in the filtered-table dict and the three pointer caches.
Iterating a bare `Table` (the split case of `cols`) is modelled from the
spec as iterating its `columns` pointers ("columnCache ... built from each
table's `columns` (if split) or `combinedColumns` (if not)", §4.1). -/
def init_table_cache (st : InitSt) (table : Table) : Except PyErr InitSt :=
  if table.total_rows = 0 then .ok st
  else
    let name := table.name
    match dget st.selection name with
    | none => .error (.keyError name)
    | some options =>
      let split := options.split
      let tablesAcc := dset st.tablesAcc name table
      let path_cache := table.path.foldl (fun pc p => dset pc p name) st.path_cache
      let types_cache := table.types.foldl (fun tc kv => dset tc kv.1 name) st.types_cache
      let cols := if split then dkeys table.columns else dkeys table.combined_columns
      let lookup_cache := cols.foldl (fun lc p => dset lc p name) st.lookup_cache
      .ok ⟨st.selection, tablesAcc, lookup_cache, types_cache, path_cache⟩

/-- The per-child cascade of `_init` for a split-configured table: fetch the
child from the full table model (`self.tables[c_name]`, raising `KeyError`
when absent), assign the fresh default `TableFlattenConfig(split=True)` to
the child's selection entry — overwriting whatever configuration that child
may already have had — and cache the child. -/
def cascadeStep (allTables : List (String × Table)) (st2 : InitSt) (c_name : String) :
    Except PyErr InitSt :=
  match dget allTables c_name with
  | none => .error (.keyError c_name)
  | some c_table =>
    init_table_cache { st2 with selection := dset st2.selection c_name { split := true } } c_table

/-- One iteration of the `_init` loop over the full table model: skip tables
absent from the (current) selection, cache the selected table, and when its
configuration is `split=true` run the child cascade. -/
def init_step (allTables : List (String × Table)) (st : InitSt) (entry : String × Table) :
    Except PyErr InitSt :=
  match dget st.selection entry.1 with
  | none => .ok st
  | some cfg => do
    let st1 ← init_table_cache st entry.2
    if cfg.split then entry.2.child_tables.foldlM (cascadeStep allTables) st1
    else pure st1

/-- One `unnest` directive of `_init_options` for a column of the table
called `name`: hoist the combined column into `columns`.  The lookup
`table.combined_columns[col_id]` is a direct subscript in the source, so a
missing column raises `KeyError`. -/
def unnestStep (name : String) (h : List (String × Table)) (col_id : String) :
    Except PyErr (List (String × Table)) :=
  match dget h name with
  | none => .ok h
  | some t =>
    match dget t.combined_columns col_id with
    | none => .error (.keyError col_id)
    | some col =>
      .ok (dmodify h name (fun t2 => t2.updColumns (fun cs => dset cs col_id col)))

/-- One `repeat` directive of `_init_options` for a column of the table
called `name`: copy the column definition onto every child table.  A missing
column is logged and skipped (`columns.get(col_id)` followed by `continue`);
a child missing from the filtered tables raises `AttributeError`, since
`tables.get(c_name)` returns `None` and the source then sets an attribute on
it. -/
def repeatStep (name : String) (split : Bool) (h : List (String × Table)) (col_id : String) :
    Except PyErr (List (String × Table)) :=
  match dget h name with
  | none => .ok h
  | some t =>
    let columns := if split then t.columns else t.combined_columns
    let title := dget t.titles col_id
    match dget columns col_id with
    | none => .ok h
    | some col =>
      t.child_tables.foldlM (fun h2 c_name =>
        match dget h2 c_name with
        | none => .error .attributeError
        | some _ =>
          .ok (dmodify h2 c_name (fun ct =>
            (ct.updColumns (fun cs => dset cs col_id col)).updTitles
              (fun ts => dset ts col_id (title.getD ""))))) h

/-- One count column of `_init_options` for one array pointer of the table
called `name`: derive the `<key>Count` pointer, pick the target table (the
`types` cache owner of the array pointer, else the table itself), add the
column and — when the array statistic is positive — bump its hit counter. -/
def countStep (types_cache : List (String × String)) (name : String)
    (h : List (String × Table)) (akv : String × Nat) :
    Except PyErr (List (String × Table)) :=
  let parts := pySplit akv.1 "/"
  let key := (parts.getLast?).getD ""
  let title := key ++ "Count"
  let path := String.intercalate "/" (parts.dropLast ++ [title])
  let target := (dget types_cache akv.1).getD name
  let h1 := dmodify h target (fun t => t.add_column path (key ++ " count") "integer")
  if akv.2 > 0 then .ok (dmodify h1 target (fun t => t.inc_column path))
  else .ok h1

/-- The count-column stage of one `_init_options` iteration: a no-op unless
`count` is enabled. -/
def init_options_count (count : Bool) (types_cache : List (String × String))
    (name : String) (table : Table) (heap : List (String × Table)) :
    Except PyErr (List (String × Table)) :=
  if count then table.arrays.foldlM (countStep types_cache name) heap
  else .ok heap

/-- One `_init_options` iteration for the filtered table called `name` (the
body of its `for table in tables.values()` loop): insert count columns, then
apply the table's `unnest` and `repeat` directives. -/
def init_options_step (count : Bool) (selection : List (String × TableFlattenConfig))
    (types_cache : List (String × String)) (heap : List (String × Table)) (name : String) :
    Except PyErr (List (String × Table)) := do
  match dget heap name with
  | none => .ok heap
  | some table =>
    match dget selection name with
    | none => .error (.keyError name)
    | some options =>
      let heap1 ← init_options_count count types_cache name table heap
      let heap2 ← options.unnest.foldlM (unnestStep name) heap1
      options.«repeat».foldlM (repeatStep name options.split) heap2

/-- Embedding of `Flattener.__init__`/`_init`: run the `_init` loop over the
whole table model (threading the cascading selection and the caches), keep
the filtered tables, and apply `_init_options` to them.  Construction can
raise, so it returns `Except`.  A Python `None` title copied by `repeat` is
modelled as the empty string (no claim observes title contents). -/
def Flattener.init (options : FlattenOptions) (tables : List (String × Table)) :
    Except PyErr Flattener := do
  let st ← tables.foldlM (init_step tables) ⟨options.selection, [], [], [], []⟩
  let heap ← (dkeys st.tablesAcc).foldlM
    (init_options_step options.count st.selection st.types_cache) st.tablesAcc
  pure ⟨⟨st.selection, options.count⟩, heap, st.lookup_cache, st.types_cache, st.path_cache⟩

/-! ### The per-record traversal (`Flattener.flatten`)

The source keeps a `deque` used as a LIFO stack (append right, pop right).
The embedding stores the stack top-first, so a block of frames pushed in
field order is reversed onto the front of the list; popping the head is then
exactly popping the deque's right end.  All frames share the single `repeat`
dict created per record (it is mutated through the shared reference and
never copied), so it is threaded through the walk state instead of the
frames. -/

/-- Output row: an insertion-ordered mapping from column pointer to value. -/
abbrev Row := List (String × Json)

/-- One stack frame of the traversal: absolute pointer, table-relative
pointer, the field key that produced the frame, the parent object and the
current object. -/
structure Frame where
  abs_path : String
  path : String
  parent_key : String
  parent : List (String × Json)
  record : List (String × Json)

/-- Walk state: per-table row lists (`rows = defaultdict(list)`) and the
shared `repeat` accumulator. -/
structure WalkState where
  rows : List (String × List Row)
  rep : List (String × Json)

/-- Number of rows currently held for table `t`. -/
def rlen (s : WalkState) (t : String) : Nat := ((dget s.rows t).getD []).length

/-- Append a freshly emitted row to a table's list (`rows[name].append`). -/
def appendRow (s : WalkState) (name : String) (row : Row) : WalkState :=
  ⟨dset s.rows name (((dget s.rows name).getD []) ++ [row]), s.rep⟩

/-- Apply `f` to the last element of a list, or fail on an empty list. -/
def updLast {α : Type} (f : α → α) : List α → Option (List α)
  | [] => none
  | [x] => some [f x]
  | x :: rest => (updLast f rest).map (fun l => x :: l)

/-- Write `rows[name][-1][k] = v`: an empty (or absent) row list raises
`IndexError`, as the defaultdict entry created by the subscript is empty. -/
def modLastRow (s : WalkState) (name k : String) (v : Json) : Except PyErr WalkState :=
  match updLast (fun r => dset r k v) ((dget s.rows name).getD []) with
  | none => .error .indexError
  | some l => .ok ⟨dset s.rows name l, s.rep⟩

/-- Row identifier built at emission time (`flatten.py` line 169): the same
composition as `generate_row_id`, applied to the raw record values with
Python truthiness and f-string rendering. -/
def jGenerateRowId (ocid item_id : Json) (parent_key : String) (top_level_id : Json) :
    String :=
  let tail :=
    if parent_key ≠ "" then parent_key ++ ":" ++ pyStr item_id else pyStr item_id
  if jTruthy top_level_id then pyStr ocid ++ "/" ++ pyStr top_level_id ++ "/" ++ tail
  else pyStr ocid ++ "/" ++ tail

/-- The string elements of an array, or `none` when any element is not a
string (`str.join` then raises `TypeError`). -/
def allStrings : List Json → Option (List String)
  | [] => some []
  | .str s :: rest => (allStrings rest).map (fun l => s :: l)
  | _ => none

/-- Frames pushed for the object elements of an array-of-object field, in
element order, with index-qualified absolute pointers (non-object elements
are skipped). -/
def arrayElemFrames (abs_path pointer key : String) (record : List (String × Json)) :
    Nat → List Json → List Frame
  | _, [] => []
  | i, .obj gs :: rest =>
      ⟨abs_path ++ "/" ++ key ++ "/" ++ toString i, pointer, key, record, gs⟩ ::
        arrayElemFrames abs_path pointer key record (i + 1) rest
  | i, _ :: rest => arrayElemFrames abs_path pointer key record (i + 1) rest

/-- Per-record context of the walk: the engine and the record's `ocid` and
top-level `id` values. -/
structure WalkCtx where
  fl : Flattener
  ocid : Json
  top_level_id : Json

/-- Processing of one field of the current object (the body of the
`for key, item in record.items()` loop).  Two branches of the source call
`utils.get_pointer` with six positional arguments — `get_pointer(pointer,
abs_path, key, split, separator, table.is_root)` at lines 201–208 and 232 —
while `utils.get_pointer` accepts only four parameters positionally
(`separator` and `index` are keyword-only), so reaching either call raises
`TypeError`; those branches are therefore embedded as `.error .typeError`. -/
def processFieldOne (ctx : WalkCtx) (fr : Frame) (s : WalkState)
    (kv : String × Json) : Except PyErr (WalkState × List Frame) :=
  let key := kv.1
  let item := kv.2
  let pointer := fr.path ++ "/" ++ key
  match (dget ctx.fl.lookup_cache pointer).orElse (fun _ => dget ctx.fl.types_cache pointer) with
  | none => .ok (s, [])
  | some tname =>
    match dget ctx.fl.tables tname with
    | none => .ok (s, [])
    | some table =>
      let item_type := dget table.types pointer
      let abs_pointer := fr.abs_path ++ "/" ++ key
      match dget ctx.fl.options.selection table.name with
      | none => .error (.keyError table.name)
      | some options =>
        let s := if pointer ∈ options.«repeat» then ⟨s.rows, dset s.rep pointer item⟩ else s
        match item with
        | .obj fields => .ok (s, [⟨abs_pointer, pointer, key, fr.record, fields⟩])
        | .arr elems =>
          if item_type = some JOINABLE then
            match allStrings elems with
            | none => .error .typeError
            | some strs =>
              match modLastRow s table.name pointer (.str (pyJoin JOINABLE strs)) with
              | .error e => .error e
              | .ok s2 => .ok (s2, [])
          else if ctx.fl.options.count then
            .error .typeError
          else
            .ok (s, arrayElemFrames fr.abs_path pointer key fr.record 0 elems)
        | _ =>
          if table.is_root then .error .typeError
          else
            let root := get_root table
            match dget ctx.fl.options.selection root.name with
            | none => .error (.keyError root.name)
            | some rootOpts =>
              if rootOpts.unnest ≠ [] ∧ abs_pointer ∈ rootOpts.unnest then
                match modLastRow s root.name abs_pointer item with
                | .error e => .error e
                | .ok s2 => .ok (s2, [])
              else .error .typeError

/-- Fold step over the fields: frames pushed by successive fields accumulate
on the right of the deque, i.e. their blocks are concatenated in field
order. -/
def processField (ctx : WalkCtx) (fr : Frame) (acc : WalkState × List Frame)
    (kv : String × Json) : Except PyErr (WalkState × List Frame) :=
  (processFieldOne ctx fr acc.1 kv).map (fun p => (p.1, acc.2 ++ p.2))

/-- Processing of one popped frame: emit a new row on a strict `path_cache`
match (merging the shared `repeat` values), then scan the object's fields in
order, collecting the frames they push. -/
def processFrame (ctx : WalkCtx) (fr : Frame) (s : WalkState) :
    Except PyErr (WalkState × List Frame) :=
  let s1 :=
    match dget ctx.fl.path_cache fr.path with
    | none => s
    | some tname =>
      match dget ctx.fl.tables tname with
      | none => s
      | some table =>
        let item_id := (dget fr.record "id").getD (.str "")
        let row_id := jGenerateRowId ctx.ocid item_id fr.parent_key ctx.top_level_id
        let new_row : Row :=
          [("rowID", .str row_id), ("id", ctx.top_level_id),
           ("parentID", (dget fr.parent "id").getD .null), ("ocid", ctx.ocid)]
        let new_row := s.rep.foldl (fun r rv => dset r rv.1 rv.2) new_row
        appendRow s table.name new_row
  fr.record.foldlM (processField ctx fr) (s1, [])

/-- Termination measure of one frame: one plus the total size of its record's
field values. -/
def frameM (fr : Frame) : Nat := 1 + jsizeFields fr.record

/-- Termination measure of the whole stack. -/
def stackM : List Frame → Nat
  | [] => 0
  | fr :: rest => frameM fr + stackM rest

theorem stackM_append (a b : List Frame) : stackM (a ++ b) = stackM a + stackM b := by
  induction a with
  | nil => simp [stackM]
  | cons fr rest ih => simp [stackM, ih]; omega

theorem stackM_reverse (a : List Frame) : stackM a.reverse = stackM a := by
  induction a with
  | nil => rfl
  | cons fr rest ih => simp [stackM, List.reverse_cons, stackM_append, ih]; omega

theorem jsize_pos (v : Json) : 1 ≤ jsize v := by
  cases v <;> simp [jsize]

theorem arrayElemFrames_measure (ap p k : String) (r : List (String × Json)) :
    ∀ (elems : List Json) (i : Nat),
      stackM (arrayElemFrames ap p k r i elems) ≤ jsizeList elems := by
  intro elems
  induction elems with
  | nil => intro i; simp [arrayElemFrames, stackM, jsizeList]
  | cons e rest ih =>
    intro i
    have hr := ih (i + 1)
    have he := jsize_pos e
    cases e <;>
      simp only [arrayElemFrames, stackM, frameM, jsizeList, jsize] <;>
      omega

theorem processFieldOne_measure (ctx : WalkCtx) (fr : Frame) (s : WalkState)
    (p : WalkState × List Frame) (kv : String × Json)
    (h : processFieldOne ctx fr s kv = .ok p) : stackM p.2 ≤ jsize kv.2 := by
  have hpos := jsize_pos kv.2
  have harr := arrayElemFrames_measure fr.abs_path (fr.path ++ "/" ++ kv.1) kv.1 fr.record
  simp only [processFieldOne] at h
  repeat' split at h
  all_goals cases h
  all_goals simp_all [stackM, frameM, jsize]
  all_goals
    first
      | omega
      | exact le_trans (harr _ 0) (by omega)

theorem processField_measure (ctx : WalkCtx) (fr : Frame) (acc acc2 : WalkState × List Frame)
    (kv : String × Json) (h : processField ctx fr acc kv = .ok acc2) :
    ∃ blk, acc2.2 = acc.2 ++ blk ∧ stackM blk ≤ jsize kv.2 := by
  unfold processField at h
  cases h1 : processFieldOne ctx fr acc.1 kv with
  | error e => rw [h1] at h; exact absurd h (by simp [Except.map])
  | ok p =>
    rw [h1] at h
    cases h
    exact ⟨p.2, rfl, processFieldOne_measure ctx fr acc.1 p kv h1⟩

theorem processFields_fold_measure (ctx : WalkCtx) (fr : Frame) :
    ∀ (fields : List (String × Json)) (acc acc2 : WalkState × List Frame),
      List.foldlM (processField ctx fr) acc fields = .ok acc2 →
      ∃ blk, acc2.2 = acc.2 ++ blk ∧ stackM blk ≤ jsizeFields fields := by
  intro fields
  induction fields with
  | nil =>
    intro acc acc2 h
    cases h
    exact ⟨[], by simp [stackM, jsizeFields]⟩
  | cons kv rest ih =>
    intro acc acc2 h
    rw [List.foldlM_cons] at h
    cases h1 : processField ctx fr acc kv with
    | error e => rw [h1] at h; exact absurd h (by simp [bind, Except.bind])
    | ok mid =>
      rw [h1] at h
      simp only [bind, Except.bind] at h
      obtain ⟨blk1, hb1, hm1⟩ := processField_measure ctx fr acc mid kv h1
      obtain ⟨blk2, hb2, hm2⟩ := ih mid acc2 h
      refine ⟨blk1 ++ blk2, ?_, ?_⟩
      · rw [hb2, hb1, List.append_assoc]
      · rw [stackM_append]
        simp only [jsizeFields]
        omega

theorem processFrame_measure (ctx : WalkCtx) (fr : Frame) (s : WalkState)
    (sp : WalkState × List Frame) (h : processFrame ctx fr s = .ok sp) :
    stackM sp.2 ≤ jsizeFields fr.record := by
  unfold processFrame at h
  obtain ⟨blk, hb, hm⟩ := processFields_fold_measure ctx fr fr.record _ sp h
  simpa [hb] using hm

/-- Fuelled form of the stack machine: pop a frame, process it, push the
frames its fields produce, repeat until the stack is empty.  The fuel only
makes the recursion structural (so that concrete runs compute by `rfl`);
`stackM stack` units always suffice, because every step consumes at least one
unit of the measure (`walk_cons` below proves the fuel-free equation, and the
zero-fuel branch is unreachable from `walk`). -/
def walkAux (ctx : WalkCtx) : Nat → List Frame → WalkState → Except PyErr WalkState
  | _, [], s => .ok s
  | 0, _ :: _, _ => .error .typeError
  | fuel + 1, fr :: rest, s =>
    match processFrame ctx fr s with
    | .error e => .error e
    | .ok sp => walkAux ctx fuel (sp.2.reverse ++ rest) sp.1

/-- The stack machine of `Flattener.flatten`, run with sufficient fuel. -/
def walk (ctx : WalkCtx) (stack : List Frame) (s : WalkState) : Except PyErr WalkState :=
  walkAux ctx (stackM stack) stack s

theorem walkAux_fuel_irrelevant (ctx : WalkCtx) :
    ∀ (fuel fuel' : Nat) (stack : List Frame) (s : WalkState),
      stackM stack ≤ fuel → stackM stack ≤ fuel' →
      walkAux ctx fuel stack s = walkAux ctx fuel' stack s := by
  intro fuel
  induction fuel with
  | zero =>
    intro fuel' stack s h h'
    match stack with
    | [] => cases fuel' <;> rfl
    | fr :: rest => simp [stackM, frameM] at h
  | succ f ih =>
    intro fuel' stack s h h'
    match stack with
    | [] => cases fuel' <;> rfl
    | fr :: rest =>
      match fuel', h' with
      | 0, h' => simp [stackM, frameM] at h'
      | f' + 1, h' =>
        simp only [walkAux]
        cases hp : processFrame ctx fr s with
        | error e => rfl
        | ok sp =>
          have hm := processFrame_measure ctx fr s sp hp
          have hlt : stackM (sp.2.reverse ++ rest) ≤ stackM (fr :: rest) - 1 := by
            simp only [stackM_append, stackM_reverse, stackM, frameM]
            simp only [stackM, frameM] at *
            omega
          have h1 : stackM (sp.2.reverse ++ rest) ≤ f := by
            simp only [stackM, frameM] at h hlt ⊢; omega
          have h2 : stackM (sp.2.reverse ++ rest) ≤ f' := by
            simp only [stackM, frameM] at h' hlt ⊢; omega
          exact ih f' (sp.2.reverse ++ rest) sp.1 h1 h2

theorem walk_nil (ctx : WalkCtx) (s : WalkState) : walk ctx [] s = .ok s := rfl

theorem walk_cons (ctx : WalkCtx) (fr : Frame) (rest : List Frame) (s : WalkState) :
    walk ctx (fr :: rest) s =
      match processFrame ctx fr s with
      | .error e => .error e
      | .ok sp => walk ctx (sp.2.reverse ++ rest) sp.1 := by
  unfold walk
  have hpos : ∃ f, stackM (fr :: rest) = f + 1 := by
    refine ⟨stackM (fr :: rest) - 1, ?_⟩
    simp only [stackM, frameM]
    omega
  obtain ⟨f, hf⟩ := hpos
  rw [hf]
  simp only [walkAux]
  cases hp : processFrame ctx fr s with
  | error e => rfl
  | ok sp =>
    have hm := processFrame_measure ctx fr s sp hp
    apply walkAux_fuel_irrelevant
    · simp only [stackM_append, stackM_reverse] at *
      simp only [stackM, frameM] at *
      omega
    · exact le_refl _

/-- Embedding of the body of `Flattener.flatten` for one record: look up the
record's `ocid` and top-level `id` (raising `KeyError` when absent — this
happens before any row is emitted), then run the traversal from the initial
frame and return the per-table row lists. -/
def flattenRelease (F : Flattener) (release : Json) :
    Except PyErr (List (String × List Row)) :=
  match release with
  | .obj fields =>
    match dget fields "ocid" with
    | none => .error (.keyError "ocid")
    | some ocid =>
      match dget fields "id" with
      | none => .error (.keyError "id")
      | some top_level_id =>
        (walk ⟨F, ocid, top_level_id⟩ [⟨"", "", "", [], fields⟩] ⟨[], []⟩).map
          (fun st => st.rows)
  | _ => .error .typeError

/-- Embedding of the `flatten` generator over a record stream: one
`(counter, rows)` pair per successfully processed record, in input order; a
raised error aborts the iteration, keeping the pairs already yielded. -/
def flattenStream (F : Flattener) : List Json → Nat →
    List (Nat × List (String × List Row)) × Option PyErr
  | [], _ => ([], none)
  | r :: rest, i =>
    match flattenRelease F r with
    | .error e => ([], some e)
    | .ok rows =>
      let p := flattenStream F rest (i + 1)
      ((i, rows) :: p.1, p.2)

/-- Construct a `Flattener` and flatten a single record with it. -/
def flattenerRun (options : FlattenOptions) (tables : List (String × Table))
    (release : Json) : Except PyErr (List (String × List Row)) :=
  (Flattener.init options tables).bind (fun F => flattenRelease F release)

/-! ### Concrete fixtures used by the claim theorems -/

/-- A root table `a` at pointer `/a` owning the array `/a/arr`, with one row
observed during analysis. -/
def tblA : Table :=
  .mk ⟨"a", ["/a"], [("/a", "object"), ("/a/arr", "array")], [("/a/arr", 1)],
       [("/a/arr", ⟨"/a/arr", "arr", "array", 0⟩)],
       [("/a/arr", ⟨"/a/arr", "arr", "array", 0⟩)], [("/a/arr", "arr")], 1, []⟩ none

/-- Options selecting table `a` un-split, with `count` enabled. -/
def C2options : FlattenOptions := ⟨[("a", { split := false })], true⟩

/-- A record carrying a one-element array at `/a/arr`. -/
def C2release : Json :=
  .obj [("ocid", .str "o"), ("id", .str "1"),
        ("a", .obj [("arr", .arr [.obj []])])]

/-! ### Claim theorems -/

/-- C2: counter-evidence for the count invariant.  With `count=true`, a
record whose table-matched array field reaches the count branch makes
`Flattener.flatten` raise `TypeError` — `flatten.py` line 201 calls
`get_pointer(pointer, abs_path, key, split, separator, table.is_root)` with
six positional arguments while `utils.get_pointer` accepts only four
positionally — so no `<A>Count` value is ever written. -/
theorem flatten_count_typeerror :
    flattenerRun C2options [("a", tblA)] C2release = .error .typeError := by
  rfl

/-- C10: a record lacking the top-level `ocid` key (or, when `ocid` is
present, the top-level `id` key) makes `Flattener.flatten` raise `KeyError`
for that record; the lookup happens before the traversal starts, so no row
is emitted (an `Except.error` result carries no rows at all).  The
empty-segment degradation lives only inside row-identifier composition
(`generate_row_id`), not in these two lookups. -/
theorem flatten_missing_ids_raises (F : Flattener) (fields : List (String × Json))
    (h : dget fields "ocid" = none ∨ dget fields "id" = none) :
    flattenRelease F (.obj fields) = .error (.keyError "ocid") ∨
      flattenRelease F (.obj fields) = .error (.keyError "id") := by
  cases hoc : dget fields "ocid" with
  | none => left; simp [flattenRelease, hoc]
  | some v =>
    cases hid : dget fields "id" with
    | none => right; simp [flattenRelease, hoc, hid]
    | some w =>
      cases h with
      | inl h1 => rw [hoc] at h1; cases h1
      | inr h2 => rw [hid] at h2; cases h2

/-- Witness for C10 at a concrete record with no `ocid` key. -/
theorem flatten_missing_ids_raises_witness :
    (dget [("id", Json.str "1")] "ocid" = none ∨ dget [("id", Json.str "1")] "id" = none) ∧
      (flattenRelease ⟨⟨[], false⟩, [], [], [], []⟩ (.obj [("id", .str "1")]) =
          .error (.keyError "ocid") ∨
        flattenRelease ⟨⟨[], false⟩, [], [], [], []⟩ (.obj [("id", .str "1")]) =
          .error (.keyError "id")) :=
  ⟨Or.inl rfl, flatten_missing_ids_raises ⟨⟨[], false⟩, [], [], [], []⟩ _ (Or.inl rfl)⟩

/-- C7: `generate_row_id` is pure string composition that omits empty
segments rather than failing: the two example identifiers hold, and in
general the result is the group id, then the top-level id when non-empty,
then `parentKey:objectID` with the `parentKey:` part omitted when the parent
key is empty. -/
theorem generate_row_id_spec :
    generate_row_id "ocid1" "item" "documents" "top" = "ocid1/top/documents:item" ∧
    generate_row_id "ocid1" "item" "" "1" = "ocid1/1/item" ∧
    ∀ ocid item_id parent_key top_level_id : String,
      generate_row_id ocid item_id parent_key top_level_id =
        (if top_level_id ≠ "" then ocid ++ "/" ++ top_level_id ++ "/" ++
            (if parent_key ≠ "" then parent_key ++ ":" ++ item_id else item_id)
          else ocid ++ "/" ++
            (if parent_key ≠ "" then parent_key ++ ":" ++ item_id else item_id)) := by
  refine ⟨by decide, by decide, ?_⟩
  intro ocid item_id parent_key top_level_id
  rfl

theorem pyTake_length (s : String) (n : Nat) : (pyTake s n).length ≤ n := by
  simp only [pyTake, String.length]
  exact List.length_take_le n s.data

/-- C8: counterexample to the claimed length bound — `generate_table_name`
only truncates the two field-key components, never the parent table name, so
with a 30-character parent table the returned name still has length 42, not
below the 31-character sheet-name ceiling. -/
theorem generate_table_name_ceiling_counterexample :
    31 ≤ (generate_table_name "aaaaaaaaaaaaaaaaaaaaaaaaaaaaaa" "bbbbbb" "cccccc").length := by
  decide

/-- C8 (amended): `generate_table_name` builds child-table names from the
abbreviation tables — in particular the `tenders_items_class` example — and
it is total (a Lean function value, never an exception), truncating the two
field-key components to five characters when the name reaches the
31-character ceiling; the result is guaranteed below the ceiling only when
the parent table name itself has at most 18 characters. -/
theorem generate_table_name_spec :
    generate_table_name "tenders" "items" "additionalClassifications" = "tenders_items_class" ∧
    ∀ parent_table parent_key key : String,
      parent_table.length ≤ 18 → (generate_table_name parent_table parent_key key).length < 31 := by
  refine ⟨by decide, ?_⟩
  intro pt pk k hpt
  have h1 := pyTake_length ((dget ABBREVIATION_KEY k).getD k) 5
  have h2 := pyTake_length pk 5
  have h3 : ("_" : String).length = 1 := by decide
  simp only [generate_table_name]
  repeat' split
  all_goals try simp only [String.length_append]
  all_goals omega

/-- Witness for the amended C8 bound at the spec's own example input. -/
theorem generate_table_name_spec_witness :
    ("tenders" : String).length ≤ 18 ∧
      (generate_table_name "tenders" "tender" "items").length < 31 :=
  ⟨by decide, generate_table_name_spec.2 "tenders" "tender" "items" (by decide)⟩

theorem isPrefixOf_single (c d : Char) (rest : List Char) :
    List.isPrefixOf [c] (d :: rest) = (c == d) := by
  simp [List.isPrefixOf]

theorem containsSub_single (c : Char) :
    ∀ xs : List Char, containsSub [c] xs = false → ∀ d ∈ xs, d ≠ c := by
  intro xs
  induction xs with
  | nil => intro _ d hd; cases hd
  | cons e rest ih =>
    intro h d hd
    simp only [containsSub, isPrefixOf_single, Bool.or_eq_false_iff] at h
    cases hd with
    | head =>
      intro hc
      subst hc
      simp at h
    | tail _ hmem => exact ih h.2 d hmem

theorem strMk_data (s : String) : String.mk s.data = s := by
  cases s
  rfl

theorem splitCharsAux_free (c : Char) :
    ∀ (x acc : List Char), (∀ d ∈ x, d ≠ c) →
      splitCharsAux c [] x acc = [acc.reverse ++ x] := by
  intro x
  induction x with
  | nil => intro acc _; simp [splitCharsAux_nil]
  | cons d rest ih =>
    intro acc h
    have hd : (c == d) = false := by
      simp only [beq_eq_false_iff_ne]
      exact (h d (List.mem_cons_self d rest)).symm
    rw [splitCharsAux_cons]
    simp only [isPrefixOf_single, List.length_nil, hd, Bool.false_eq_true, if_false]
    rw [ih (d :: acc) (fun e he => h e (List.mem_cons_of_mem d he))]
    simp

theorem splitCharsAux_boundary (c : Char) :
    ∀ (x t acc : List Char), (∀ d ∈ x, d ≠ c) →
      splitCharsAux c [] (x ++ c :: t) acc =
        (acc.reverse ++ x) :: splitCharsAux c [] t [] := by
  intro x
  induction x with
  | nil =>
    intro t acc _
    simp only [List.nil_append]
    rw [splitCharsAux_cons]
    simp [isPrefixOf_single]
  | cons d rest ih =>
    intro t acc h
    have hd : (c == d) = false := by
      simp only [beq_eq_false_iff_ne]
      exact (h d (List.mem_cons_self d rest)).symm
    simp only [List.cons_append]
    rw [splitCharsAux_cons]
    simp only [isPrefixOf_single, List.length_nil, hd, Bool.false_eq_true, if_false]
    rw [ih t (d :: acc) (fun e he => h e (List.mem_cons_of_mem d he))]
    simp

theorem pySplit_joinable (s : String) :
    pySplit s JOINABLE = (splitCharsAux ';' [] s.data []).map (fun l => String.mk l) := by
  rfl

/-- C5: counterexample to the unrestricted round trip — for the empty list
(which vacuously contains no delimiter) the joined string is `""`, and
re-splitting `""` yields `[""]`, not the original `[]`. -/
theorem join_split_empty_list_counterexample :
    pySplit (pyJoin JOINABLE []) JOINABLE ≠ [] := by
  have h : pySplit (pyJoin JOINABLE []) JOINABLE = [""] := by
    rw [show pyJoin JOINABLE [] = "" from rfl, pySplit_joinable]
    rw [show ("" : String).data = [] from rfl]
    rw [splitCharsAux_nil]
    simp
  rw [h]
  simp

/-- C5 (amended): for every non-empty list of strings none of which contains
the join delimiter, joining with `JOINABLE` (the exact string the flatten
walk writes for a joinable array, see `processFieldOne`) and re-splitting on
the same delimiter recovers the original ordered list. -/
theorem join_split_roundtrip (l : List String) (hne : l ≠ [])
    (hfree : ∀ x ∈ l, pyIn JOINABLE x = false) :
    pySplit (pyJoin JOINABLE l) JOINABLE = l := by
  induction l with
  | nil => exact absurd rfl hne
  | cons x rest ih =>
    have hx : ∀ d ∈ x.data, d ≠ ';' := by
      apply containsSub_single
      have := hfree x (List.mem_cons_self x rest)
      simpa [pyIn] using this
    cases rest with
    | nil =>
      show pySplit (pyJoin JOINABLE [x]) JOINABLE = [x]
      have hj : pyJoin JOINABLE [x] = x := rfl
      rw [hj, pySplit_joinable, splitCharsAux_free ';' x.data [] hx]
      simp [strMk_data]
    | cons y rest2 =>
      have hj : pyJoin JOINABLE (x :: y :: rest2) =
          x ++ JOINABLE ++ pyJoin JOINABLE (y :: rest2) := rfl
      rw [hj, pySplit_joinable]
      have hdata : (x ++ JOINABLE ++ pyJoin JOINABLE (y :: rest2)).data =
          x.data ++ ';' :: (pyJoin JOINABLE (y :: rest2)).data := by
        simp [String.data_append]
        rfl
      rw [hdata, splitCharsAux_boundary ';' x.data _ [] hx]
      simp only [List.reverse_nil, List.nil_append, List.map_cons, strMk_data]
      rw [← pySplit_joinable]
      rw [ih (by simp) (fun z hz => hfree z (List.mem_cons_of_mem x hz))]

/-- Witness for the amended C5 round trip at a concrete two-element list. -/
theorem join_split_roundtrip_witness :
    (["x", "y"] : List String) ≠ [] ∧
      (∀ x ∈ (["x", "y"] : List String), pyIn JOINABLE x = false) ∧
      pySplit (pyJoin JOINABLE ["x", "y"]) JOINABLE = ["x", "y"] :=
  ⟨by decide, by decide, join_split_roundtrip ["x", "y"] (by decide) (by decide)⟩

theorem dget_dset_self {α : Type} (l : List (String × α)) (k : String) (v : α) :
    dget (dset l k v) k = some v := by
  induction l with
  | nil => simp [dset, dget]
  | cons kv rest ih =>
    by_cases h : kv.1 = k <;> simp [dset, dget, h, ih]

theorem dget_dset_ne {α : Type} (l : List (String × α)) (k k' : String) (v : α)
    (h : k' ≠ k) : dget (dset l k v) k' = dget l k' := by
  induction l with
  | nil => simp [dset, dget, Ne.symm h]
  | cons kv rest ih =>
    by_cases h1 : kv.1 = k <;> simp [dset, dget, h1, Ne.symm h, ih]

theorem init_table_cache_selection (st : InitSt) (t : Table) (st1 : InitSt)
    (h : init_table_cache st t = .ok st1) : st1.selection = st.selection := by
  simp only [init_table_cache] at h
  repeat' split at h
  all_goals cases h
  all_goals rfl

theorem cascadeStep_selection (allTables : List (String × Table)) (st : InitSt)
    (c : String) (st1 : InitSt) (h : cascadeStep allTables st c = .ok st1) :
    st1.selection = dset st.selection c { split := true } := by
  unfold cascadeStep at h
  split at h
  · cases h
  · exact init_table_cache_selection _ _ _ h

theorem cascade_fold_sel (allTables : List (String × Table)) :
    ∀ (children : List String) (st0 st1 : InitSt),
      List.foldlM (cascadeStep allTables) st0 children = .ok st1 →
      (∀ c ∈ children, dget st1.selection c = some { split := true }) ∧
        ∀ k, dget st1.selection k = dget st0.selection k ∨
          dget st1.selection k = some { split := true } := by
  intro children
  induction children with
  | nil =>
    intro st0 st1 h
    cases h
    exact ⟨fun c hc => absurd hc (List.not_mem_nil c), fun k => Or.inl rfl⟩
  | cons c rest ih =>
    intro st0 st1 h
    rw [List.foldlM_cons] at h
    cases h1 : cascadeStep allTables st0 c with
    | error e => rw [h1] at h; exact absurd h (by simp [bind, Except.bind])
    | ok stm =>
      rw [h1] at h
      simp only [bind, Except.bind] at h
      have hsel := cascadeStep_selection allTables st0 c stm h1
      obtain ⟨hP, hQ⟩ := ih stm st1 h
      constructor
      · intro d hd
        cases List.mem_cons.mp hd with
        | inl heq =>
          rw [heq]
          cases hQ c with
          | inl h2 => rw [h2, hsel, dget_dset_self]
          | inr h2 => exact h2
        | inr hmem => exact hP d hmem
      · intro k
        cases hQ k with
        | inr h2 => exact Or.inr h2
        | inl h2 =>
          by_cases hk : k = c
          · subst hk
            rw [hsel, dget_dset_self] at h2
            exact Or.inr h2
          · rw [hsel, dget_dset_ne _ _ _ _ hk] at h2
            exact Or.inl h2

/-- C3 (amended): for every table processed by `_init` whose current
configuration is `split=true`, the step assigns the fresh default
`TableFlattenConfig(split=True)` to every direct child of that table —
overwriting any configuration the child already had in `selection` (deeper
descendants receive the cascade only when their own entry in the table model
is processed later with the overwritten configuration). -/
theorem init_cascade_sets_default_split (allTables : List (String × Table))
    (st st' : InitSt) (entry : String × Table) (cfg : TableFlattenConfig)
    (hsel : dget st.selection entry.1 = some cfg) (hsplit : cfg.split = true)
    (hok : init_step allTables st entry = .ok st') :
    ∀ c ∈ entry.2.child_tables, dget st'.selection c = some { split := true } := by
  unfold init_step at hok
  rw [hsel] at hok
  simp only [bind, Except.bind] at hok
  cases h1 : init_table_cache st entry.2 with
  | error e => rw [h1] at hok; cases hok
  | ok st1 =>
    rw [h1] at hok
    rw [hsplit] at hok
    simp only [if_true] at hok
    exact (cascade_fold_sel allTables entry.2.child_tables st1 st' hok).1

/-- A parent table `p` with one child table `c`. -/
def C3parent : Table :=
  .mk ⟨"p", ["/p"], [("/p", "object")], [], [], [], [], 1, ["c"]⟩ none

/-- The child table `c` of `C3parent`. -/
def C3child : Table :=
  .mk ⟨"c", ["/p/c"], [("/p/c", "object")], [], [], [], [], 1, []⟩ none

/-- An explicit, non-default configuration for the child table. -/
def C3explicit : TableFlattenConfig := { split := false, name := "keep" }

/-- Selection naming both tables, the parent split and the child explicitly
configured. -/
def C3options : FlattenOptions :=
  ⟨[("p", { split := true }), ("c", C3explicit)], false⟩

/-- C3: counterexample — the child `c` is explicitly present in the
selection with its own configuration, yet after initialization its
configuration is the fresh default `split=true` one: the cascade overwrites
explicitly-present descendant configurations. -/
theorem init_cascade_overwrites_explicit_config :
    (Flattener.init C3options [("p", C3parent), ("c", C3child)]).map
        (fun F => dget F.options.selection "c") =
      .ok (some { split := true }) ∧
      ({ split := true } : TableFlattenConfig) ≠ C3explicit :=
  ⟨rfl, by decide⟩

/-- Initial `_init` state for the C3 fixture. -/
def C3stInit : InitSt := ⟨C3options.selection, [], [], [], []⟩

/-- Result of the `_init` step on the parent of the C3 fixture. -/
def C3stepOut : InitSt :=
  match init_step [("p", C3parent), ("c", C3child)] C3stInit ("p", C3parent) with
  | .ok st => st
  | .error _ => C3stInit

/-- Witness for the amended C3 cascade at the concrete fixture. -/
theorem init_cascade_sets_default_split_witness :
    dget C3stInit.selection "p" = some { split := true } ∧
      ({ split := true } : TableFlattenConfig).split = true ∧
      init_step [("p", C3parent), ("c", C3child)] C3stInit ("p", C3parent) = .ok C3stepOut ∧
      dget C3stepOut.selection "c" = some { split := true } :=
  ⟨rfl, rfl, rfl,
    init_cascade_sets_default_split [("p", C3parent), ("c", C3child)] C3stInit C3stepOut
      ("p", C3parent) { split := true } rfl rfl rfl "c" (by simp [C3parent, Table.child_tables, Table.data])⟩

/-- A selected table `t1` with a single combined column `/t1/x`. -/
def C4table : Table :=
  .mk ⟨"t1", ["/t1"], [("/t1", "object")], [], [],
       [("/t1/x", ⟨"/t1/x", "x", "string", 0⟩)], [("/t1/x", "x")], 1, []⟩ none

/-- Options whose `unnest` directive references a column absent from `t1`. -/
def C4options : FlattenOptions :=
  ⟨[("t1", { split := false, unnest := ["/t1/missing"] })], false⟩

/-- C4: counterexample — an `unnest` directive referencing a column absent
from the target table makes `Flattener` construction raise `KeyError`
(`table.combined_columns[col_id]` is a direct subscript), so construction
does not complete for unnest directives, contrary to the claim. -/
theorem init_unnest_missing_column_raises :
    Flattener.init C4options [("t1", C4table)] = .error (.keyError "/t1/missing") := by
  rfl

/-- C4 (amended): a `repeat` directive whose column identifier is absent
from the target table's column set is skipped (after a warning) and leaves
the tables untouched, so by itself it never aborts construction; an
`unnest` directive with an absent column instead raises `KeyError` at
construction (see the counterexample). -/
theorem init_repeat_missing_column_skipped (name : String) (split : Bool)
    (h : List (String × Table)) (col_id : String) (t : Table)
    (hget : dget h name = some t)
    (hcol : dget (if split then t.columns else t.combined_columns) col_id = none) :
    repeatStep name split h col_id = .ok h := by
  simp only [repeatStep, hget, hcol]

/-- Witness for the amended C4 skip at the concrete fixture. -/
theorem init_repeat_missing_column_skipped_witness :
    dget [("t1", C4table)] "t1" = some C4table ∧
      dget (if false then C4table.columns else C4table.combined_columns) "/zz" = none ∧
      repeatStep "t1" false [("t1", C4table)] "/zz" = .ok [("t1", C4table)] :=
  ⟨rfl, rfl, init_repeat_missing_column_skipped "t1" false [("t1", C4table)] "/zz" C4table rfl rfl⟩

theorem dget_mem {α : Type} :
    ∀ (l : List (String × α)) (k : String) (v : α), dget l k = some v → (k, v) ∈ l := by
  intro l
  induction l with
  | nil => intro k v h; cases h
  | cons kv rest ih =>
    intro k v h
    simp only [dget] at h
    split at h
    · rename_i heq
      cases h
      rw [← heq]
      exact List.mem_cons_self kv rest
    · exact List.mem_cons_of_mem _ (ih k v h)

theorem dget_mem_dkeys {α : Type} (l : List (String × α)) (k : String) (v : α)
    (h : dget l k = some v) : k ∈ dkeys l := by
  have := dget_mem l k v h
  exact List.mem_map_of_mem Prod.fst this

theorem mem_dset {α : Type} :
    ∀ (l : List (String × α)) (k : String) (v : α) (p : String × α),
      p ∈ dset l k v → p = (k, v) ∨ p ∈ l := by
  intro l
  induction l with
  | nil => intro k v p h; simp [dset] at h; exact Or.inl h
  | cons kv rest ih =>
    intro k v p h
    simp only [dset] at h
    split at h
    · cases h with
      | head => exact Or.inl rfl
      | tail _ hm => exact Or.inr (List.mem_cons_of_mem _ hm)
    · cases h with
      | head => exact Or.inr (List.mem_cons_self kv rest)
      | tail _ hm =>
        cases ih k v p hm with
        | inl h1 => exact Or.inl h1
        | inr h1 => exact Or.inr (List.mem_cons_of_mem _ h1)

theorem dkeys_cons {α : Type} (p : String × α) (l : List (String × α)) :
    dkeys (p :: l) = p.1 :: dkeys l := rfl

theorem mem_dkeys_dset {α : Type} (l : List (String × α)) (k k' : String) (v : α)
    (h : k' ∈ dkeys (dset l k v)) : k' = k ∨ k' ∈ dkeys l := by
  obtain ⟨p, hp, hk⟩ := List.mem_map.mp h
  cases mem_dset l k v p hp with
  | inl h1 => left; rw [← hk, h1]
  | inr h1 => right; rw [← hk]; exact List.mem_map_of_mem Prod.fst h1

theorem dkeys_dset_of_mem {α : Type} :
    ∀ (l : List (String × α)) (k : String) (v : α), k ∈ dkeys l →
      dkeys (dset l k v) = dkeys l := by
  intro l
  induction l with
  | nil => intro k v h; cases h
  | cons kv rest ih =>
    intro k v h
    simp only [dset]
    split
    · rename_i heq
      rw [dkeys_cons, dkeys_cons, heq]
    · rename_i hne
      have hk : k ∈ dkeys rest := by
        cases List.mem_cons.mp h with
        | inl h1 => exact absurd h1.symm hne
        | inr h1 => exact h1
      rw [dkeys_cons, dkeys_cons, ih k v hk]

theorem dkeys_dmodify {α : Type} :
    ∀ (l : List (String × α)) (k : String) (f : α → α),
      dkeys (dmodify l k f) = dkeys l := by
  intro l
  induction l with
  | nil => intro k f; rfl
  | cons kv rest ih =>
    intro k f
    simp only [dmodify]
    split
    · rw [dkeys_cons, dkeys_cons]
    · rw [dkeys_cons, dkeys_cons, ih k f]

theorem mem_dmodify {α : Type} :
    ∀ (l : List (String × α)) (k : String) (f : α → α) (p : String × α),
      p ∈ dmodify l k f → p ∈ l ∨ ∃ q ∈ l, p = (q.1, f q.2) := by
  intro l
  induction l with
  | nil => intro k f p h; cases h
  | cons kv rest ih =>
    intro k f p h
    simp only [dmodify] at h
    split at h
    · cases h with
      | head => exact Or.inr ⟨kv, List.mem_cons_self kv rest, rfl⟩
      | tail _ hm => exact Or.inl (List.mem_cons_of_mem _ hm)
    · cases h with
      | head => exact Or.inl (List.mem_cons_self kv rest)
      | tail _ hm =>
        cases ih k f p hm with
        | inl h1 => exact Or.inl (List.mem_cons_of_mem _ h1)
        | inr h1 =>
          obtain ⟨q, hq, hpq⟩ := h1
          exact Or.inr ⟨q, List.mem_cons_of_mem _ hq, hpq⟩

theorem nodup_keys_eq {α : Type} :
    ∀ (l : List (String × α)), (dkeys l).Nodup →
      ∀ (k : String) (a b : α), (k, a) ∈ l → (k, b) ∈ l → a = b := by
  intro l
  induction l with
  | nil => intro _ k a b ha; cases ha
  | cons kv rest ih =>
    intro hnd k a b ha hb
    have hnd' : (dkeys rest).Nodup := (List.nodup_cons.mp hnd).2
    have hhd : kv.1 ∉ dkeys rest := (List.nodup_cons.mp hnd).1
    cases List.mem_cons.mp ha with
    | inl h1 =>
      cases List.mem_cons.mp hb with
      | inl h2 =>
        rw [← h1] at h2
        injection h2 with _ hba
        exact hba.symm
      | inr h2 =>
        exfalso
        apply hhd
        have hk : k = kv.1 := congrArg Prod.fst h1
        exact hk ▸ List.mem_map_of_mem Prod.fst h2
    | inr h1 =>
      cases List.mem_cons.mp hb with
      | inl h2 =>
        exfalso
        apply hhd
        have hk : k = kv.1 := congrArg Prod.fst h2
        exact hk ▸ List.mem_map_of_mem Prod.fst h1
      | inr h2 => exact ih hnd' k a b h1 h2

/-- Invariant propagation through a `foldlM` in the `Except` monad. -/
theorem foldlM_inv {σ β : Type} (P : σ → Prop) (f : σ → β → Except PyErr σ) :
    ∀ (l : List β) (st st' : σ),
      (∀ st1 b st2, b ∈ l → f st1 b = .ok st2 → P st1 → P st2) →
      List.foldlM f st l = .ok st' → P st → P st' := by
  intro l
  induction l with
  | nil => intro st st' _ h hP; cases h; exact hP
  | cons b rest ih =>
    intro st st' hf h hP
    rw [List.foldlM_cons] at h
    cases h1 : f st b with
    | error e => rw [h1] at h; exact absurd h (by simp [bind, Except.bind])
    | ok stm =>
      rw [h1] at h
      simp only [bind, Except.bind] at h
      exact ih stm st' (fun st1 c st2 hc => hf st1 c st2 (List.mem_cons_of_mem b hc)) h
        (hf st b stm (List.mem_cons_self b rest) h1 hP)

/-- The values stored in a pointer cache. -/
def cacheVals (c : List (String × String)) : List String := c.map Prod.snd

/-- Invariant carried through `_init` relative to an excluded table name
`n0`: the table dict is keyed by table name, and neither it nor any cache
ever mentions `n0`. -/
def initInvariant (n0 : String) (st : InitSt) : Prop :=
  (∀ p ∈ st.tablesAcc, (p : String × Table).2.name = p.1) ∧
    n0 ∉ dkeys st.tablesAcc ∧
    (∀ v ∈ cacheVals st.path_cache, v ≠ n0) ∧
    (∀ v ∈ cacheVals st.types_cache, v ≠ n0) ∧
    (∀ v ∈ cacheVals st.lookup_cache, v ≠ n0)

/-- Invariant on the filtered-table heap relative to an excluded name. -/
def heapInvariant (n0 : String) (heap : List (String × Table)) : Prop :=
  (∀ p ∈ heap, (p : String × Table).2.name = p.1) ∧ n0 ∉ dkeys heap

theorem cacheVals_dset (c : List (String × String)) (k x v : String)
    (h : v ∈ cacheVals (dset c k x)) : v = x ∨ v ∈ cacheVals c := by
  obtain ⟨p, hp, hv⟩ := List.mem_map.mp h
  cases mem_dset c k x p hp with
  | inl h1 => left; rw [← hv, h1]
  | inr h1 => right; rw [← hv]; exact List.mem_map_of_mem Prod.snd h1

theorem cache_fold_vals {β : Type} (g : β → String) (name n0 : String) (hname : name ≠ n0) :
    ∀ (bs : List β) (cache : List (String × String)),
      (∀ v ∈ cacheVals cache, v ≠ n0) →
      ∀ v ∈ cacheVals (bs.foldl (fun c b => dset c (g b) name) cache), v ≠ n0 := by
  intro bs
  induction bs with
  | nil => intro cache h; exact h
  | cons b rest ih =>
    intro cache h
    rw [List.foldl_cons]
    apply ih
    intro v hv
    cases cacheVals_dset cache (g b) name v hv with
    | inl h1 => rw [h1]; exact hname
    | inr h1 => exact h v h1

theorem init_table_cache_inv (n0 : String) (st st1 : InitSt) (t : Table)
    (ht : t.total_rows ≠ 0 → t.name ≠ n0)
    (h : init_table_cache st t = .ok st1) (hinv : initInvariant n0 st) :
    initInvariant n0 st1 := by
  simp only [init_table_cache] at h
  split at h
  · cases h; exact hinv
  · rename_i hnz
    split at h
    · cases h
    · cases h
      obtain ⟨hc, hk, hp, hty, hlk⟩ := hinv
      have hn : t.name ≠ n0 := ht hnz
      refine ⟨?_, ?_, ?_, ?_, ?_⟩
      · intro p hp2
        cases mem_dset st.tablesAcc t.name t p hp2 with
        | inl h1 => rw [h1]
        | inr h1 => exact hc p h1
      · intro hmem
        cases mem_dkeys_dset st.tablesAcc t.name n0 t hmem with
        | inl h1 => exact hn h1.symm
        | inr h1 => exact hk h1
      · exact cache_fold_vals (fun p => p) t.name n0 hn t.path st.path_cache hp
      · exact cache_fold_vals (fun kv => Prod.fst kv) t.name n0 hn t.types st.types_cache hty
      · exact cache_fold_vals (fun p => p) t.name n0 hn _ st.lookup_cache hlk

theorem cascadeStep_inv (n0 : String) (allTables : List (String × Table))
    (hgood : ∀ p ∈ allTables, (p : String × Table).2.total_rows ≠ 0 → p.2.name ≠ n0)
    (st : InitSt) (c : String) (st1 : InitSt)
    (h : cascadeStep allTables st c = .ok st1) (hinv : initInvariant n0 st) :
    initInvariant n0 st1 := by
  unfold cascadeStep at h
  cases hg : dget allTables c with
  | none => rw [hg] at h; cases h
  | some ct =>
    rw [hg] at h
    have hmem := dget_mem allTables c ct hg
    exact init_table_cache_inv n0 _ st1 ct (hgood (c, ct) hmem) h hinv

theorem init_step_inv (n0 : String) (allTables : List (String × Table))
    (hgood : ∀ p ∈ allTables, (p : String × Table).2.total_rows ≠ 0 → p.2.name ≠ n0)
    (st : InitSt) (entry : String × Table) (st1 : InitSt)
    (hentry : entry ∈ allTables)
    (h : init_step allTables st entry = .ok st1) (hinv : initInvariant n0 st) :
    initInvariant n0 st1 := by
  unfold init_step at h
  cases hs : dget st.selection entry.1 with
  | none => simp only [hs] at h; cases h; exact hinv
  | some cfg =>
    simp only [hs, bind, Except.bind] at h
    cases h1 : init_table_cache st entry.2 with
    | error e => simp only [h1] at h; cases h
    | ok stm =>
      simp only [h1] at h
      have hinv1 := init_table_cache_inv n0 st stm entry.2 (hgood entry hentry) h1 hinv
      split at h
      · exact foldlM_inv (initInvariant n0) (cascadeStep allTables) entry.2.child_tables stm st1
          (fun st2 b st3 _ hb => cascadeStep_inv n0 allTables hgood st2 b st3 hb) h hinv1
      · cases h; exact hinv1

theorem dmodify_heapInv (n0 : String) (heap : List (String × Table)) (k : String)
    (f : Table → Table) (hf : ∀ t, (f t).name = t.name)
    (hinv : heapInvariant n0 heap) : heapInvariant n0 (dmodify heap k f) := by
  obtain ⟨hc, hk⟩ := hinv
  constructor
  · intro p hp
    cases mem_dmodify heap k f p hp with
    | inl h1 => exact hc p h1
    | inr h1 =>
      obtain ⟨q, hq, hpq⟩ := h1
      rw [hpq]
      show (f q.2).name = q.1
      rw [hf q.2]
      exact hc q hq
  · rw [dkeys_dmodify]
    exact hk

theorem name_add_column (t : Table) (path title ty : String) :
    (t.add_column path title ty).name = t.name := rfl

theorem name_inc_column (t : Table) (path : String) :
    (t.inc_column path).name = t.name := rfl

theorem unnestStep_inv (n0 name : String) (heap heap' : List (String × Table)) (col_id : String)
    (h : unnestStep name heap col_id = .ok heap') (hinv : heapInvariant n0 heap) :
    heapInvariant n0 heap' := by
  unfold unnestStep at h
  repeat' split at h
  all_goals cases h
  · exact hinv
  · exact dmodify_heapInv n0 heap name _ (fun t => rfl) hinv

theorem repeatStep_inv (n0 name : String) (split : Bool) (heap heap' : List (String × Table))
    (col_id : String) (h : repeatStep name split heap col_id = .ok heap')
    (hinv : heapInvariant n0 heap) : heapInvariant n0 heap' := by
  simp only [repeatStep] at h
  repeat' split at h
  all_goals
    first
      | (cases h; exact hinv)
      | (refine foldlM_inv (heapInvariant n0) _ _ heap heap' ?_ h hinv
         intro h1 b h2 _ hb hP
         split at hb
         · cases hb
         · cases hb
           exact dmodify_heapInv n0 h1 b _ (fun t => rfl) hP)

theorem countStep_inv (n0 : String) (types_cache : List (String × String)) (name : String)
    (heap heap' : List (String × Table)) (akv : String × Nat)
    (h : countStep types_cache name heap akv = .ok heap')
    (hinv : heapInvariant n0 heap) : heapInvariant n0 heap' := by
  simp only [countStep] at h
  split at h
  · cases h
    exact dmodify_heapInv n0 _ _ _ (fun t => rfl)
      (dmodify_heapInv n0 _ _ _ (fun t => rfl) hinv)
  · cases h
    exact dmodify_heapInv n0 _ _ _ (fun t => rfl) hinv

theorem init_options_count_inv (n0 : String) (count : Bool)
    (types_cache : List (String × String)) (name : String) (table : Table)
    (heap heap' : List (String × Table))
    (h : init_options_count count types_cache name table heap = .ok heap')
    (hinv : heapInvariant n0 heap) : heapInvariant n0 heap' := by
  unfold init_options_count at h
  split at h
  · exact foldlM_inv (heapInvariant n0) (countStep types_cache name) table.arrays heap heap'
      (fun s1 b s2 _ hb hP => countStep_inv n0 types_cache name s1 s2 b hb hP) h hinv
  · cases h; exact hinv

theorem init_options_step_inv (n0 : String) (count : Bool)
    (selection : List (String × TableFlattenConfig)) (types_cache : List (String × String))
    (heap heap' : List (String × Table)) (name : String)
    (h : init_options_step count selection types_cache heap name = .ok heap')
    (hinv : heapInvariant n0 heap) : heapInvariant n0 heap' := by
  unfold init_options_step at h
  cases hg : dget heap name with
  | none => simp only [hg] at h; cases h; exact hinv
  | some table =>
    simp only [hg] at h
    cases hs : dget selection name with
    | none => simp only [hs] at h; cases h
    | some options =>
      simp only [hs, bind, Except.bind] at h
      cases h1 : init_options_count count types_cache name table heap with
      | error e => simp only [h1] at h; cases h
      | ok heap1 =>
        simp only [h1] at h
        have hinv1 := init_options_count_inv n0 count types_cache name table heap heap1 h1 hinv
        cases h2 : options.unnest.foldlM (unnestStep name) heap1 with
        | error e => simp only [h2] at h; cases h
        | ok heap2 =>
          simp only [h2] at h
          have hinv2 := foldlM_inv (heapInvariant n0) (unnestStep name) options.unnest heap1
            heap2 (fun s1 b s2 _ hb hP => unnestStep_inv n0 name s1 s2 b hb hP) h2 hinv1
          exact foldlM_inv (heapInvariant n0) (repeatStep name options.split) options.«repeat»
            heap2 heap' (fun s1 b s2 _ hb hP => repeatStep_inv n0 name options.split s1 s2 b hb hP)
            h hinv2

theorem modLastRow_keys (s : WalkState) (name k : String) (v : Json) (s2 : WalkState)
    (h : modLastRow s name k v = .ok s2) :
    dkeys s2.rows = dkeys s.rows ∧ name ∈ dkeys s.rows := by
  unfold modLastRow at h
  cases hg : dget s.rows name with
  | none => simp only [hg, Option.getD, updLast] at h; cases h
  | some l =>
    simp only [hg, Option.getD] at h
    cases hu : updLast (fun r => dset r k v) l with
    | none => simp only [hu] at h; cases h
    | some l2 =>
      simp only [hu] at h
      cases h
      have hmem := dget_mem_dkeys s.rows name l hg
      exact ⟨dkeys_dset_of_mem s.rows name l2 hmem, hmem⟩

theorem processFieldOne_keys (ctx : WalkCtx) (fr : Frame) (s : WalkState)
    (p : WalkState × List Frame) (kv : String × Json)
    (h : processFieldOne ctx fr s kv = .ok p) : dkeys p.1.rows = dkeys s.rows := by
  simp only [processFieldOne] at h
  repeat' split at h
  all_goals cases h
  all_goals
    first
      | rfl
      | (split <;> rfl)
      | (rename_i s2 hml
         rcases modLastRow_keys _ _ _ _ _ hml with ⟨hk, _⟩
         rw [hk]
         split <;> rfl)

theorem processField_keys (ctx : WalkCtx) (fr : Frame) (acc acc2 : WalkState × List Frame)
    (kv : String × Json) (h : processField ctx fr acc kv = .ok acc2) :
    dkeys acc2.1.rows = dkeys acc.1.rows := by
  unfold processField at h
  cases h1 : processFieldOne ctx fr acc.1 kv with
  | error e => rw [h1] at h; exact absurd h (by simp [Except.map])
  | ok p =>
    rw [h1] at h
    cases h
    exact processFieldOne_keys ctx fr acc.1 p kv h1

theorem processFrame_keys (ctx : WalkCtx)
    (hcoh : ∀ p ∈ ctx.fl.tables, (p : String × Table).2.name = p.1)
    (fr : Frame) (s : WalkState) (sp : WalkState × List Frame)
    (h : processFrame ctx fr s = .ok sp)
    (hs : ∀ k ∈ dkeys s.rows, k ∈ dkeys ctx.fl.tables) :
    ∀ k ∈ dkeys sp.1.rows, k ∈ dkeys ctx.fl.tables := by
  unfold processFrame at h
  have hmain :
      ∀ (s1 : WalkState), (∀ k ∈ dkeys s1.rows, k ∈ dkeys ctx.fl.tables) →
        List.foldlM (processField ctx fr) (s1, ([] : List Frame)) fr.record = .ok sp →
        ∀ k ∈ dkeys sp.1.rows, k ∈ dkeys ctx.fl.tables := by
    intro s1 hs1 hfold
    exact foldlM_inv (fun acc => ∀ k ∈ dkeys acc.1.rows, k ∈ dkeys ctx.fl.tables)
      (processField ctx fr) fr.record (s1, []) sp
      (fun acc b acc2 _ hb hP => by
        show ∀ k ∈ dkeys acc2.1.rows, k ∈ dkeys ctx.fl.tables
        rw [processField_keys ctx fr acc acc2 b hb]
        exact hP)
      hfold hs1
  cases hpc : dget ctx.fl.path_cache fr.path with
  | none =>
    simp only [hpc] at h
    exact hmain s hs h
  | some tname =>
    simp only [hpc] at h
    cases htb : dget ctx.fl.tables tname with
    | none =>
      simp only [htb] at h
      exact hmain s hs h
    | some table =>
      simp only [htb] at h
      refine hmain _ ?_ h
      intro k hk
      simp only [appendRow] at hk
      cases mem_dkeys_dset s.rows table.name k _ hk with
      | inl h1 =>
        rw [h1]
        have : table.name = tname := hcoh (tname, table) (dget_mem _ _ _ htb)
        rw [this]
        exact dget_mem_dkeys ctx.fl.tables tname table htb
      | inr h1 => exact hs k h1

theorem walkAux_preserves (ctx : WalkCtx) (P : WalkState → Prop)
    (hstep : ∀ fr s sp, processFrame ctx fr s = .ok sp → P s → P sp.1) :
    ∀ (fuel : Nat) (stack : List Frame) (s s' : WalkState),
      walkAux ctx fuel stack s = .ok s' → P s → P s' := by
  intro fuel
  induction fuel with
  | zero =>
    intro stack s s' h hP
    match stack with
    | [] => cases h; exact hP
    | fr :: rest => exact absurd h (by simp [walkAux])
  | succ f ih =>
    intro stack s s' h hP
    match stack with
    | [] => cases h; exact hP
    | fr :: rest =>
      simp only [walkAux] at h
      cases hp : processFrame ctx fr s with
      | error e => rw [hp] at h; cases h
      | ok sp =>
        rw [hp] at h
        exact ih _ sp.1 s' h (hstep fr s sp hp hP)

theorem flattenRelease_rows_keys (F : Flattener)
    (hcoh : ∀ p ∈ F.tables, (p : String × Table).2.name = p.1)
    (release : Json) (rows : List (String × List Row))
    (h : flattenRelease F release = .ok rows) :
    ∀ k ∈ dkeys rows, k ∈ dkeys F.tables := by
  cases release with
  | str s => simp only [flattenRelease] at h; cases h
  | num n => simp only [flattenRelease] at h; cases h
  | bool b => simp only [flattenRelease] at h; cases h
  | null => simp only [flattenRelease] at h; cases h
  | arr l => simp only [flattenRelease] at h; cases h
  | obj fields =>
    simp only [flattenRelease] at h
    cases hoc : dget fields "ocid" with
    | none => simp only [hoc] at h; cases h
    | some ocid =>
      simp only [hoc] at h
      cases hid : dget fields "id" with
      | none => simp only [hid] at h; cases h
      | some tli =>
        simp only [hid] at h
        cases hw : walk ⟨F, ocid, tli⟩ [⟨"", "", "", [], fields⟩] ⟨[], []⟩ with
        | error e => rw [hw] at h; simp only [Except.map] at h; cases h
        | ok st =>
          rw [hw] at h
          simp only [Except.map] at h
          cases h
          unfold walk at hw
          exact walkAux_preserves ⟨F, ocid, tli⟩
            (fun s => ∀ k ∈ dkeys s.rows, k ∈ dkeys F.tables)
            (fun fr s sp hp hP => processFrame_keys ⟨F, ocid, tli⟩ hcoh fr s sp hp hP)
            (stackM [⟨"", "", "", [], fields⟩]) [⟨"", "", "", [], fields⟩] ⟨[], []⟩ st hw
            (by intro k hk; cases hk)

/-- C6: a table `T` in the selection with `total_rows = 0` at construction
is excluded from the engine — its name never appears as a key of the
filtered-table dict nor as a referenced table of any of the three pointer
caches — and for every record, a successful `flatten` output contains no row
list keyed by `T`'s name.  The hypotheses say the input table dict is keyed
by table name with no duplicate keys, as Python dicts guarantee. -/
theorem zero_row_table_excluded (options : FlattenOptions) (tables : List (String × Table))
    (F : Flattener) (n0 : String) (T : Table)
    (hmem : (n0, T) ∈ tables) (hzero : T.total_rows = 0)
    (hkeys : ∀ p ∈ tables, (p : String × Table).2.name = p.1)
    (hnodup : (dkeys tables).Nodup)
    (hinit : Flattener.init options tables = .ok F) :
    T.name ∉ dkeys F.tables ∧
      (∀ v ∈ cacheVals F.path_cache, v ≠ T.name) ∧
      (∀ v ∈ cacheVals F.types_cache, v ≠ T.name) ∧
      (∀ v ∈ cacheVals F.lookup_cache, v ≠ T.name) ∧
      ∀ release rows, flattenRelease F release = .ok rows → T.name ∉ dkeys rows := by
  have hTn : T.name = n0 := hkeys (n0, T) hmem
  have hgood : ∀ p ∈ tables, (p : String × Table).2.total_rows ≠ 0 → p.2.name ≠ n0 := by
    intro p hp hnz heq
    have hp1 : p.2.name = p.1 := hkeys p hp
    have hpk : p.1 = n0 := by rw [← hp1, heq]
    have hpmem : (n0, p.2) ∈ tables := by rw [← hpk]; exact hp
    have hpt := nodup_keys_eq tables hnodup n0 p.2 T hpmem hmem
    rw [hpt] at hnz
    exact hnz hzero
  unfold Flattener.init at hinit
  simp only [bind, Except.bind] at hinit
  cases h1 : tables.foldlM (init_step tables) ⟨options.selection, [], [], [], []⟩ with
  | error e => simp only [h1] at hinit; cases hinit
  | ok st =>
    simp only [h1] at hinit
    cases h2 : (dkeys st.tablesAcc).foldlM
        (init_options_step options.count st.selection st.types_cache) st.tablesAcc with
    | error e => simp only [h2] at hinit; cases hinit
    | ok heap =>
      simp only [h2, pure, Except.pure] at hinit
      cases hinit
      have hinv0 : initInvariant n0 ⟨options.selection, [], [], [], []⟩ := by
        refine ⟨?_, ?_, ?_, ?_, ?_⟩ <;> simp [dkeys, cacheVals]
      have hinvSt := foldlM_inv (initInvariant n0) (init_step tables) tables _ st
        (fun s1 b s2 hb hok hP => init_step_inv n0 tables hgood s1 b s2 hb hok hP) h1 hinv0
      have hheap0 : heapInvariant n0 st.tablesAcc := ⟨hinvSt.1, hinvSt.2.1⟩
      have hheap := foldlM_inv (heapInvariant n0)
        (init_options_step options.count st.selection st.types_cache)
        (dkeys st.tablesAcc) st.tablesAcc heap
        (fun s1 b s2 _ hok hP =>
          init_options_step_inv n0 options.count st.selection st.types_cache s1 s2 b hok hP)
        h2 hheap0
      rw [hTn]
      refine ⟨hheap.2, hinvSt.2.2.1, hinvSt.2.2.2.1, hinvSt.2.2.2.2, ?_⟩
      intro release rows hfr hk
      have hsub := flattenRelease_rows_keys _ hheap.1 release rows hfr
      exact hheap.2 (hsub n0 hk)

/-- A selected table `z` with zero rows observed during analysis. -/
def C6zero : Table :=
  .mk ⟨"z", ["/z"], [("/z", "object")], [], [], [], [], 0, []⟩ none

/-- A selected table `b` with one row observed during analysis. -/
def C6b : Table :=
  .mk ⟨"b", ["/b"], [("/b", "object")], [], [],
       [("/b/x", ⟨"/b/x", "x", "string", 0⟩)], [("/b/x", "x")], 1, []⟩ none

/-- Options selecting both `z` and `b`. -/
def C6options : FlattenOptions := ⟨[("z", { split := false }), ("b", { split := false })], false⟩

/-- The table model of the C6 fixture. -/
def C6tables : List (String × Table) := [("z", C6zero), ("b", C6b)]

/-- The engine built from the C6 fixture. -/
def C6F : Flattener :=
  match Flattener.init C6options C6tables with
  | .ok F => F
  | .error _ => ⟨⟨[], false⟩, [], [], [], []⟩

/-- A record with data for `b` only. -/
def C6release : Json := .obj [("ocid", .str "o"), ("id", .str "1"), ("b", .obj [])]

/-- The rows the C6 fixture produces for `C6release`. -/
def C6rows : List (String × List Row) :=
  match flattenRelease C6F C6release with
  | .ok r => r
  | .error _ => []

/-- Witness for C6 at the concrete fixture: the zero-row table `z` is
selected, the engine builds, the record flattens, and `z` appears neither in
the filtered tables nor in the output rows. -/
theorem zero_row_table_excluded_witness :
    (("z", C6zero) ∈ C6tables) ∧ C6zero.total_rows = 0 ∧
      (∀ p ∈ C6tables, (p : String × Table).2.name = p.1) ∧ (dkeys C6tables).Nodup ∧
      Flattener.init C6options C6tables = .ok C6F ∧
      flattenRelease C6F C6release = .ok C6rows ∧
      C6zero.name ∉ dkeys C6F.tables ∧ C6zero.name ∉ dkeys C6rows := by
  have hmem : ("z", C6zero) ∈ C6tables :=
    show ("z", C6zero) ∈ [("z", C6zero), ("b", C6b)] from List.mem_cons_self _ _
  have hkeys : ∀ p ∈ C6tables, (p : String × Table).2.name = p.1 := by
    intro p hp
    cases List.mem_cons.mp hp with
    | inl h1 => rw [h1]; rfl
    | inr h1 =>
      cases List.mem_cons.mp h1 with
      | inl h2 => rw [h2]; rfl
      | inr h2 => cases h2
  have hmain := zero_row_table_excluded C6options C6tables C6F "z" C6zero hmem rfl hkeys
    (by decide) rfl
  exact ⟨hmem, rfl, hkeys, by decide, rfl, rfl, hmain.1, hmain.2.2.2.2 C6release C6rows rfl⟩

theorem foldlM_append_except {σ β : Type} (f : σ → β → Except PyErr σ) :
    ∀ (xs ys : List β) (s : σ),
      List.foldlM f s (xs ++ ys) =
        (List.foldlM f s xs).bind (fun s1 => List.foldlM f s1 ys) := by
  intro xs
  induction xs with
  | nil => intro ys s; simp [bind, Except.bind, pure, Except.pure]
  | cons x rest ih =>
    intro ys s
    rw [List.cons_append, List.foldlM_cons, List.foldlM_cons]
    cases hx : f s x with
    | error e => simp [bind, Except.bind]
    | ok s1 => simp only [bind, Except.bind]; exact ih ys s1

/-- The frames one field pushes onto the traversal deque, read off from the
branches of `processFieldOne`; the pushed block depends only on the engine's
caches and the field itself, never on the walk state.  Used to pin down the
per-field blocks in the sibling-order theorem. -/
def fieldBlock (ctx : WalkCtx) (fr : Frame) (kv : String × Json) : List Frame :=
  let pointer := fr.path ++ "/" ++ kv.1
  match (dget ctx.fl.lookup_cache pointer).orElse (fun _ => dget ctx.fl.types_cache pointer) with
  | none => []
  | some tname =>
    match dget ctx.fl.tables tname with
    | none => []
    | some table =>
      match kv.2 with
      | .obj fields =>
          [⟨fr.abs_path ++ "/" ++ kv.1, pointer, kv.1, fr.record, fields⟩]
      | .arr elems =>
          if dget table.types pointer = some JOINABLE then []
          else if ctx.fl.options.count then []
          else arrayElemFrames fr.abs_path pointer kv.1 fr.record 0 elems
      | _ => []

theorem processFieldOne_pushes (ctx : WalkCtx) (fr : Frame) (s : WalkState)
    (p : WalkState × List Frame) (kv : String × Json)
    (h : processFieldOne ctx fr s kv = .ok p) : p.2 = fieldBlock ctx fr kv := by
  simp only [processFieldOne] at h
  simp only [fieldBlock]
  repeat' split at h
  all_goals cases h
  all_goals simp_all

theorem updLast_length {α : Type} (f : α → α) :
    ∀ (l l2 : List α), updLast f l = some l2 → l2.length = l.length := by
  intro l
  induction l with
  | nil => intro l2 h; cases h
  | cons x rest ih =>
    intro l2 h
    cases rest with
    | nil => cases h; rfl
    | cons y rest2 =>
      simp only [updLast] at h
      cases hu : updLast f (y :: rest2) with
      | none => rw [hu] at h; cases h
      | some l3 =>
        rw [hu] at h
        cases h
        simp [ih l3 hu]

theorem rlen_modLastRow (s : WalkState) (name k : String) (v : Json) (s2 : WalkState)
    (h : modLastRow s name k v = .ok s2) : ∀ t, rlen s2 t = rlen s t := by
  unfold modLastRow at h
  cases hg : dget s.rows name with
  | none => simp only [hg, Option.getD, updLast] at h; cases h
  | some l =>
    simp only [hg, Option.getD] at h
    cases hu : updLast (fun r => dset r k v) l with
    | none => simp only [hu] at h; cases h
    | some l2 =>
      simp only [hu] at h
      cases h
      intro t
      by_cases ht : t = name
      · subst ht
        simp only [rlen, dget_dset_self, hg, Option.getD]
        exact updLast_length _ l l2 hu
      · simp only [rlen, dget_dset_ne s.rows name t l2 ht]

theorem processFieldOne_rlen (ctx : WalkCtx) (fr : Frame) (s : WalkState)
    (p : WalkState × List Frame) (kv : String × Json)
    (h : processFieldOne ctx fr s kv = .ok p) : ∀ t, rlen p.1 t = rlen s t := by
  simp only [processFieldOne] at h
  repeat' split at h
  all_goals cases h
  all_goals
    first
      | (intro t; rfl)
      | (intro t; split <;> rfl)
      | (rename_i s2 hml
         intro t
         rw [rlen_modLastRow _ _ _ _ _ hml t]
         split <;> rfl)

theorem rlen_appendRow (s : WalkState) (name : String) (row : Row) :
    ∀ t, rlen s t ≤ rlen (appendRow s name row) t := by
  intro t
  by_cases ht : t = name
  · subst ht
    simp only [rlen, appendRow, dget_dset_self, Option.getD]
    cases hg : dget s.rows t <;> simp [hg, Option.getD]
  · simp only [rlen, appendRow, dget_dset_ne s.rows name t _ ht]
    exact le_refl _

theorem processFrame_rlen (ctx : WalkCtx) (fr : Frame) (s : WalkState)
    (sp : WalkState × List Frame) (h : processFrame ctx fr s = .ok sp) :
    ∀ t, rlen s t ≤ rlen sp.1 t := by
  unfold processFrame at h
  have hmain :
      ∀ (s1 : WalkState), (∀ t, rlen s t ≤ rlen s1 t) →
        List.foldlM (processField ctx fr) (s1, ([] : List Frame)) fr.record = .ok sp →
        ∀ t, rlen s t ≤ rlen sp.1 t := by
    intro s1 hs1 hfold
    exact foldlM_inv (fun acc => ∀ t, rlen s t ≤ rlen acc.1 t)
      (processField ctx fr) fr.record (s1, []) sp
      (fun acc b acc2 _ hb hP => by
        show ∀ t, rlen s t ≤ rlen acc2.1 t
        unfold processField at hb
        cases h1 : processFieldOne ctx fr acc.1 b with
        | error e => rw [h1] at hb; exact absurd hb (by simp [Except.map])
        | ok q =>
          rw [h1] at hb
          cases hb
          intro t
          rw [processFieldOne_rlen ctx fr acc.1 q b h1 t]
          exact hP t)
      hfold hs1
  cases hpc : dget ctx.fl.path_cache fr.path with
  | none =>
    simp only [hpc] at h
    exact hmain s (fun t => le_refl _) h
  | some tname =>
    simp only [hpc] at h
    cases htb : dget ctx.fl.tables tname with
    | none =>
      simp only [htb] at h
      exact hmain s (fun t => le_refl _) h
    | some table =>
      simp only [htb] at h
      exact hmain _ (rlen_appendRow s table.name _) h

theorem walk_rlen_mono (ctx : WalkCtx) (stack : List Frame) (s s' : WalkState)
    (h : walk ctx stack s = .ok s') : ∀ t, rlen s t ≤ rlen s' t := by
  unfold walk at h
  exact walkAux_preserves ctx (fun sx => ∀ t, rlen s t ≤ rlen sx t)
    (fun fr scur sp hp hP t => le_trans (hP t) (processFrame_rlen ctx fr scur sp hp t))
    (stackM stack) stack s s' h (fun t => le_refl _)

theorem walk_append (ctx : WalkCtx) :
    ∀ (B A : List Frame) (s : WalkState),
      walk ctx (B ++ A) s = (walk ctx B s).bind (fun s1 => walk ctx A s1) := by
  suffices H : ∀ (n : Nat) (B A : List Frame) (s : WalkState), stackM B = n →
      walk ctx (B ++ A) s = (walk ctx B s).bind (fun s1 => walk ctx A s1) by
    exact fun B A s => H (stackM B) B A s rfl
  intro n
  induction n using Nat.strong_induction_on with
  | _ n ih =>
    intro B A s hn
    match B with
    | [] => simp [walk_nil, bind, Except.bind]
    | fr :: B2 =>
      rw [List.cons_append, walk_cons, walk_cons]
      cases hp : processFrame ctx fr s with
      | error e => simp [bind, Except.bind]
      | ok sp =>
        simp only
        rw [← List.append_assoc]
        have hm := processFrame_measure ctx fr s sp hp
        have hlt : stackM (sp.2.reverse ++ B2) < n := by
          subst hn
          rw [stackM_append, stackM_reverse]
          simp only [stackM, frameM]
          omega
        exact ih _ hlt (sp.2.reverse ++ B2) A sp.1 rfl

theorem foldlM_single {σ β : Type} (f : σ → β → Except PyErr σ) (x : β) (s : σ) :
    List.foldlM f s [x] = f s x := by
  rw [List.foldlM_cons]
  cases h : f s x <;> simp [bind, Except.bind, List.foldlM, pure, Except.pure]

theorem processFrame_decomp (ctx : WalkCtx) (fr : Frame) (s : WalkState)
    (sp : WalkState × List Frame) (h : processFrame ctx fr s = .ok sp) :
    ∃ s1, List.foldlM (processField ctx fr) (s1, ([] : List Frame)) fr.record = .ok sp := by
  unfold processFrame at h
  exact ⟨_, h⟩

/-- C1: the sibling-order property.  For a record whose top-level fields
list two fields `a` and `b` in that order, the traversal's single pop of the
top frame pushes the per-field frame blocks in field order, and the LIFO
stack then runs `b`'s entire block — its whole subtree, since `walk` of a
block finishes that block and everything it pushes before touching what lies
below it on the stack — to completion strictly before `a`'s block starts.
Row lists only grow during a walk, so every row of `b`'s subtree sits at an
index below every row of `a`'s subtree in the final per-table lists: `b`'s
rows occupy indices `[rlen sPost t, rlen sB t)` and `a`'s occupy
`[rlen sMid t, rlen sA t)`, with the intermediate lengths monotone. -/
theorem flatten_sibling_order (F : Flattener) (fields pre mid post : List (String × Json))
    (a b : String) (va vb : Json) (ocid tli : Json) (out : List (String × List Row))
    (hfields : fields = pre ++ [(a, va)] ++ mid ++ [(b, vb)] ++ post)
    (hoc : dget fields "ocid" = some ocid) (hid : dget fields "id" = some tli)
    (hok : flattenRelease F (.obj fields) = .ok out) :
    ∃ (spS sPost sB sMid sA sFin : WalkState) (Ppre Pmid Ppost : List Frame),
      processFrame ⟨F, ocid, tli⟩ ⟨"", "", "", [], fields⟩ ⟨[], []⟩ =
        .ok (spS, Ppre ++ fieldBlock ⟨F, ocid, tli⟩ ⟨"", "", "", [], fields⟩ (a, va) ++
          Pmid ++ fieldBlock ⟨F, ocid, tli⟩ ⟨"", "", "", [], fields⟩ (b, vb) ++ Ppost) ∧
      walk ⟨F, ocid, tli⟩ Ppost.reverse spS = .ok sPost ∧
      walk ⟨F, ocid, tli⟩ (fieldBlock ⟨F, ocid, tli⟩ ⟨"", "", "", [], fields⟩ (b, vb)).reverse
        sPost = .ok sB ∧
      walk ⟨F, ocid, tli⟩ Pmid.reverse sB = .ok sMid ∧
      walk ⟨F, ocid, tli⟩ (fieldBlock ⟨F, ocid, tli⟩ ⟨"", "", "", [], fields⟩ (a, va)).reverse
        sMid = .ok sA ∧
      walk ⟨F, ocid, tli⟩ Ppre.reverse sA = .ok sFin ∧
      out = sFin.rows ∧
      ∀ t, rlen sPost t ≤ rlen sB t ∧ rlen sB t ≤ rlen sMid t ∧
        rlen sMid t ≤ rlen sA t ∧ rlen sA t ≤ rlen sFin t := by
  subst hfields
  simp only [flattenRelease, hoc, hid] at hok
  set ctx0 : WalkCtx := ⟨F, ocid, tli⟩ with hctx
  set fr0 : Frame := ⟨"", "", "", [], pre ++ [(a, va)] ++ mid ++ [(b, vb)] ++ post⟩ with hfr
  cases hw : walk ctx0 [fr0] ⟨[], []⟩ with
  | error e => rw [hw] at hok; simp [Except.map] at hok
  | ok sFin0 =>
    rw [hw] at hok
    simp only [Except.map] at hok
    cases hok
    rw [walk_cons] at hw
    cases hp : processFrame ctx0 fr0 ⟨[], []⟩ with
    | error e => simp only [hp] at hw; cases hw
    | ok sp =>
      simp only [hp] at hw
      rw [List.append_nil] at hw
      obtain ⟨spS0, spP⟩ := sp
      obtain ⟨S1, hfold⟩ := processFrame_decomp _ _ _ _ hp
      have hrec : fr0.record = pre ++ [(a, va)] ++ mid ++ [(b, vb)] ++ post := by rw [hfr]
      rw [hrec] at hfold
      rw [foldlM_append_except] at hfold
      cases hL4 : List.foldlM (processField ctx0 fr0) (S1, ([] : List Frame))
          (pre ++ [(a, va)] ++ mid ++ [(b, vb)]) with
      | error e => rw [hL4] at hfold; exact absurd hfold (by simp [bind, Except.bind])
      | ok accB =>
        rw [hL4] at hfold
        simp only [bind, Except.bind] at hfold
        rw [foldlM_append_except] at hL4
        cases hL3 : List.foldlM (processField ctx0 fr0) (S1, ([] : List Frame))
            (pre ++ [(a, va)] ++ mid) with
        | error e => rw [hL3] at hL4; exact absurd hL4 (by simp [bind, Except.bind])
        | ok accMid =>
          rw [hL3] at hL4
          simp only [bind, Except.bind] at hL4
          rw [foldlM_single] at hL4
          have hB := hL4
          rw [foldlM_append_except] at hL3
          cases hL2 : List.foldlM (processField ctx0 fr0) (S1, ([] : List Frame))
              (pre ++ [(a, va)]) with
          | error e => rw [hL2] at hL3; exact absurd hL3 (by simp [bind, Except.bind])
          | ok accA =>
            rw [hL2] at hL3
            simp only [bind, Except.bind] at hL3
            have hMid := hL3
            rw [foldlM_append_except] at hL2
            cases hPre : List.foldlM (processField ctx0 fr0) (S1, ([] : List Frame)) pre with
            | error e => rw [hPre] at hL2; exact absurd hL2 (by simp [bind, Except.bind])
            | ok accPre =>
              rw [hPre] at hL2
              simp only [bind, Except.bind] at hL2
              rw [foldlM_single] at hL2
              have hA := hL2
              obtain ⟨Ppre, hPpre, _⟩ :=
                processFields_fold_measure _ _ pre (S1, []) accPre hPre
              obtain ⟨Pmid, hPmid, _⟩ :=
                processFields_fold_measure _ _ mid accA accMid hMid
              obtain ⟨Ppost, hPpost, _⟩ :=
                processFields_fold_measure _ _ post accB (spS0, spP) hfold
              have hPa : accA.2 = accPre.2 ++ fieldBlock ctx0 fr0 (a, va) := by
                unfold processField at hA
                cases hq : processFieldOne ctx0 fr0 accPre.1 (a, va) with
                | error e => rw [hq] at hA; exact absurd hA (by simp [Except.map])
                | ok q =>
                  rw [hq] at hA
                  cases hA
                  show accPre.2 ++ q.2 = accPre.2 ++ fieldBlock ctx0 fr0 (a, va)
                  rw [processFieldOne_pushes _ _ _ _ _ hq]
              have hPb : accB.2 = accMid.2 ++ fieldBlock ctx0 fr0 (b, vb) := by
                unfold processField at hB
                cases hq : processFieldOne ctx0 fr0 accMid.1 (b, vb) with
                | error e => rw [hq] at hB; exact absurd hB (by simp [Except.map])
                | ok q =>
                  rw [hq] at hB
                  cases hB
                  show accMid.2 ++ q.2 = accMid.2 ++ fieldBlock ctx0 fr0 (b, vb)
                  rw [processFieldOne_pushes _ _ _ _ _ hq]
              have hspP : spP = Ppre ++ fieldBlock ctx0 fr0 (a, va) ++ Pmid ++
                  fieldBlock ctx0 fr0 (b, vb) ++ Ppost := by
                have hx : spP = accB.2 ++ Ppost := hPpost
                rw [hx, hPb, hPmid, hPa, hPpre]
                simp [List.append_assoc]
              rw [hspP] at hw
              simp only [List.reverse_append, List.append_assoc] at hw
              rw [walk_append] at hw
              cases hwPost : walk ctx0 Ppost.reverse spS0 with
              | error e => rw [hwPost] at hw; exact absurd hw (by simp [bind, Except.bind])
              | ok sPost =>
                rw [hwPost] at hw
                simp only [bind, Except.bind] at hw
                rw [walk_append] at hw
                cases hwB : walk ctx0 (fieldBlock ctx0 fr0 (b, vb)).reverse sPost with
                | error e => rw [hwB] at hw; exact absurd hw (by simp [bind, Except.bind])
                | ok sB =>
                  rw [hwB] at hw
                  simp only [bind, Except.bind] at hw
                  rw [walk_append] at hw
                  cases hwMid : walk ctx0 Pmid.reverse sB with
                  | error e => rw [hwMid] at hw; exact absurd hw (by simp [bind, Except.bind])
                  | ok sMid =>
                    rw [hwMid] at hw
                    simp only [bind, Except.bind] at hw
                    rw [walk_append] at hw
                    cases hwA : walk ctx0 (fieldBlock ctx0 fr0 (a, va)).reverse sMid with
                    | error e => rw [hwA] at hw; exact absurd hw (by simp [bind, Except.bind])
                    | ok sA =>
                      rw [hwA] at hw
                      simp only [bind, Except.bind] at hw
                      refine ⟨spS0, sPost, sB, sMid, sA, sFin0, Ppre, Pmid, Ppost,
                        ?_, hwPost, hwB, hwMid, hwA, hw, rfl, ?_⟩
                      · rw [hspP]
                      · intro t
                        exact ⟨walk_rlen_mono _ _ _ _ hwB t, walk_rlen_mono _ _ _ _ hwMid t,
                          walk_rlen_mono _ _ _ _ hwA t, walk_rlen_mono _ _ _ _ hw t⟩
/-- A root table at pointer `/a` for the sibling-order witness. -/
def C1tblA : Table :=
  .mk ⟨"ta", ["/a"], [("/a", "object")], [], [], [], [], 1, []⟩ none

/-- A root table at pointer `/b` for the sibling-order witness. -/
def C1tblB : Table :=
  .mk ⟨"tb", ["/b"], [("/b", "object")], [], [], [], [], 1, []⟩ none

/-- Options selecting both sibling tables un-split. -/
def C1options : FlattenOptions :=
  ⟨[("ta", { split := false }), ("tb", { split := false })], false⟩

/-- The engine of the sibling-order witness. -/
def C1F : Flattener :=
  match Flattener.init C1options [("ta", C1tblA), ("tb", C1tblB)] with
  | .ok F => F
  | .error _ => ⟨⟨[], false⟩, [], [], [], []⟩

/-- A record with two nested-object fields `a`, `b` declared in that order. -/
def C1fields : List (String × Json) :=
  [("ocid", .str "o"), ("id", .str "1"), ("a", .obj []), ("b", .obj [])]

/-- The per-table rows the witness record flattens to. -/
def C1out : List (String × List Row) :=
  match flattenRelease C1F (.obj C1fields) with
  | .ok r => r
  | .error _ => []

/-- Witness for C1 at the concrete fixture: the record flattens successfully
and the staged decomposition of its traversal exists. -/
theorem flatten_sibling_order_witness :
    (C1fields = [("ocid", Json.str "o"), ("id", Json.str "1")] ++ [("a", Json.obj [])] ++
        [] ++ [("b", Json.obj [])] ++ []) ∧
      dget C1fields "ocid" = some (.str "o") ∧
      dget C1fields "id" = some (.str "1") ∧
      flattenRelease C1F (.obj C1fields) = .ok C1out ∧
      (∃ (spS sPost sB sMid sA sFin : WalkState) (Ppre Pmid Ppost : List Frame),
        processFrame ⟨C1F, .str "o", .str "1"⟩ ⟨"", "", "", [], C1fields⟩ ⟨[], []⟩ =
          .ok (spS, Ppre ++ fieldBlock ⟨C1F, .str "o", .str "1"⟩ ⟨"", "", "", [], C1fields⟩
            ("a", .obj []) ++ Pmid ++
            fieldBlock ⟨C1F, .str "o", .str "1"⟩ ⟨"", "", "", [], C1fields⟩ ("b", .obj []) ++
            Ppost) ∧
        walk ⟨C1F, .str "o", .str "1"⟩ Ppost.reverse spS = .ok sPost ∧
        walk ⟨C1F, .str "o", .str "1"⟩
          (fieldBlock ⟨C1F, .str "o", .str "1"⟩ ⟨"", "", "", [], C1fields⟩
            ("b", .obj [])).reverse sPost = .ok sB ∧
        walk ⟨C1F, .str "o", .str "1"⟩ Pmid.reverse sB = .ok sMid ∧
        walk ⟨C1F, .str "o", .str "1"⟩
          (fieldBlock ⟨C1F, .str "o", .str "1"⟩ ⟨"", "", "", [], C1fields⟩
            ("a", .obj [])).reverse sMid = .ok sA ∧
        walk ⟨C1F, .str "o", .str "1"⟩ Ppre.reverse sA = .ok sFin ∧
        C1out = sFin.rows ∧
        ∀ t, rlen sPost t ≤ rlen sB t ∧ rlen sB t ≤ rlen sMid t ∧
          rlen sMid t ≤ rlen sA t ∧ rlen sA t ≤ rlen sFin t) :=
  ⟨rfl, rfl, rfl, rfl,
    flatten_sibling_order C1F C1fields [("ocid", Json.str "o"), ("id", Json.str "1")] [] []
      "a" "b" (.obj []) (.obj []) (.str "o") (.str "1") C1out rfl rfl rfl rfl⟩

theorem dkeys_append {α : Type} (a b : List (String × α)) :
    dkeys (a ++ b) = dkeys a ++ dkeys b := by
  simp [dkeys]

theorem dset_fresh {α : Type} :
    ∀ (l : List (String × α)) (k : String) (v : α), k ∉ dkeys l →
      dset l k v = l ++ [(k, v)] := by
  intro l
  induction l with
  | nil => intro k v _; rfl
  | cons kv rest ih =>
    intro k v h
    rw [dkeys_cons] at h
    have hne : kv.1 ≠ k := fun he => h (he ▸ List.mem_cons_self kv.1 (dkeys rest))
    simp only [dset, if_neg hne, List.cons_append]
    rw [ih k v (fun hm => h (List.mem_cons_of_mem _ hm))]

theorem dset_mem_self {α : Type} :
    ∀ (l : List (String × α)) (k : String) (v : α), (k, v) ∈ dset l k v := by
  intro l
  induction l with
  | nil => intro k v; exact List.mem_cons_self _ _
  | cons kv rest ih =>
    intro k v
    by_cases h : kv.1 = k
    · simp only [dset, if_pos h]
      exact List.mem_cons_self _ _
    · simp only [dset, if_neg h]
      exact List.mem_cons_of_mem _ (ih k v)

theorem dset_mem_ne {α : Type} :
    ∀ (l : List (String × α)) (k : String) (v : α) (k2 : String) (v2 : α),
      (k, v) ∈ l → k ≠ k2 → (k, v) ∈ dset l k2 v2 := by
  intro l
  induction l with
  | nil => intro k v k2 v2 h _; cases h
  | cons kv rest ih =>
    intro k v k2 v2 h hne
    by_cases hk : kv.1 = k2
    · simp only [dset, if_pos hk]
      cases List.mem_cons.mp h with
      | inl h1 =>
        exfalso
        apply hne
        rw [← h1] at hk
        exact hk
      | inr h1 => exact List.mem_cons_of_mem _ h1
    · simp only [dset, if_neg hk]
      cases List.mem_cons.mp h with
      | inl h1 => rw [h1]; exact List.mem_cons_self _ _
      | inr h1 => exact List.mem_cons_of_mem _ (ih k v k2 v2 h1 hne)

theorem dset_mem_same {α : Type} :
    ∀ (l : List (String × α)) (k : String) (v : α), (k, v) ∈ l → (dkeys l).Nodup →
      dset l k v = l := by
  intro l
  induction l with
  | nil => intro k v h; cases h
  | cons kv rest ih =>
    intro k v h hnd
    by_cases hk : kv.1 = k
    · have hkv : kv = (k, v) := by
        cases List.mem_cons.mp h with
        | inl h1 => exact h1.symm
        | inr h1 =>
          exfalso
          have : kv.1 ∈ dkeys rest := hk ▸ List.mem_map_of_mem Prod.fst h1
          exact (List.nodup_cons.mp hnd).1 this
      subst hkv
      simp [dset]
    · have h1 : (k, v) ∈ rest := by
        cases List.mem_cons.mp h with
        | inl h2 => exact absurd (congrArg Prod.fst h2.symm) hk
        | inr h2 => exact h2
      simp only [dset, if_neg hk]
      rw [ih k v h1 (List.nodup_cons.mp hnd).2]

theorem dkeys_dset_nodup {α : Type} (l : List (String × α)) (k : String) (v : α)
    (h : (dkeys l).Nodup) : (dkeys (dset l k v)).Nodup := by
  by_cases hk : k ∈ dkeys l
  · rw [dkeys_dset_of_mem l k v hk]; exact h
  · rw [dset_fresh l k v hk, dkeys_append]
    simp only [List.nodup_append]
    exact ⟨h, List.nodup_singleton k, by
      intro a ha hb
      simp only [dkeys, List.map_cons, List.map_nil, List.mem_singleton] at hb
      exact hk (hb ▸ ha)⟩

theorem dget_none_iff {α : Type} :
    ∀ (l : List (String × α)) (k : String), dget l k = none ↔ k ∉ dkeys l := by
  intro l
  induction l with
  | nil => intro k; simp [dget, dkeys]
  | cons kv rest ih =>
    intro k
    by_cases h : kv.1 = k
    · simp [dget, if_pos h, dkeys_cons, h]
    · have hne : ¬(k = kv.1) := fun he => h he.symm
      simp only [dget, if_neg h, dkeys_cons, List.mem_cons, not_or]
      rw [ih k]
      constructor
      · intro h1; exact ⟨hne, h1⟩
      · intro h1; exact h1.2

theorem dhas_eq_false {α : Type} (l : List (String × α)) (k : String) :
    dhas l k = false ↔ k ∉ dkeys l := by
  rw [← dget_none_iff]
  unfold dhas
  cases dget l k <;> simp

theorem exists_split_first {α : Type} :
    ∀ (l : List (String × α)) (k : String), k ∈ dkeys l →
      ∃ (P : List (String × α)) (v : α) (Q : List (String × α)),
        l = P ++ (k, v) :: Q ∧ k ∉ dkeys P := by
  intro l
  induction l with
  | nil => intro k h; cases h
  | cons kv rest ih =>
    intro k h
    by_cases hk : kv.1 = k
    · obtain ⟨a, b⟩ := kv
      simp only at hk
      subst hk
      exact ⟨[], b, rest, rfl, by simp [dkeys]⟩
    · have h' : k ∈ dkeys rest := by
        rw [dkeys_cons] at h
        cases List.mem_cons.mp h with
        | inl h1 => exact absurd h1.symm hk
        | inr h1 => exact h1
      obtain ⟨P, v, Q, hPQ, hkP⟩ := ih k h'
      refine ⟨kv :: P, v, Q, by rw [hPQ]; rfl, ?_⟩
      rw [dkeys_cons]
      intro hm
      cases List.mem_cons.mp hm with
      | inl h1 => exact hk h1.symm
      | inr h1 => exact hkP h1

theorem getLastD_mem : ∀ (l : List String), l ≠ [] → l.getLast?.getD "" ∈ l := by
  intro l
  induction l with
  | nil => intro h; exact absurd rfl h
  | cons x rest ih =>
    intro _
    cases rest with
    | nil => simp
    | cons y rest2 =>
      rw [List.getLast?_cons_cons]
      exact List.mem_cons_of_mem x (ih (by simp))

theorem foldl_preserves {σ β : Type} (P : σ → Prop) (f : σ → β → σ)
    (hf : ∀ s b, P s → P (f s b)) :
    ∀ (xs : List β) (s : σ), P s → P (xs.foldl f s) := by
  intro xs
  induction xs with
  | nil => intro s h; exact h
  | cons x rest ih => intro s h; exact ih (f s x) (hf s x h)

theorem foldl_const {σ β : Type} :
    ∀ (l : List β) (s : σ), l.foldl (fun a _ => a) s = s := by
  intro l
  induction l with
  | nil => intro s; rfl
  | cons x rest ih => intro s; exact ih s

theorem newColsOf_nil (t : Table) (path bp zp sep : String) (n : Nat) :
    newColsOf t path bp zp sep n [] = [] := by
  simp only [newColsOf, List.foldl_nil]
  exact foldl_const _ _

theorem newColsOf_nodup (t : Table) (path bp zp sep : String) (n : Nat)
    (Z : List (String × Column)) : (dkeys (newColsOf t path bp zp sep n Z)).Nodup := by
  unfold newColsOf
  apply foldl_preserves (fun acc => (dkeys acc).Nodup)
  · intro s b hs
    apply foldl_preserves (fun acc2 => (dkeys acc2).Nodup)
    · intro s2 kv hs2
      exact dkeys_dset_nodup _ _ _ hs2
    · exact hs
  · simp [dkeys]

theorem mem_dkeys_dremove {α : Type} :
    ∀ (l : List (String × α)) (k k' : String), k' ∈ dkeys (dremove l k) → k' ∈ dkeys l := by
  intro l
  induction l with
  | nil => intro k k' h; cases h
  | cons kv rest ih =>
    intro k k' h
    by_cases hk : kv.1 = k
    · simp only [dremove, if_pos hk] at h
      rw [dkeys_cons]
      exact List.mem_cons_of_mem _ h
    · simp only [dremove, if_neg hk, dkeys_cons] at h ⊢
      cases List.mem_cons.mp h with
      | inl h1 => exact h1 ▸ List.mem_cons_self _ _
      | inr h1 => exact List.mem_cons_of_mem _ (ih k k' h1)

theorem dkeys_dremove_nodup {α : Type} :
    ∀ (l : List (String × α)) (k : String), (dkeys l).Nodup →
      (dkeys (dremove l k)).Nodup := by
  intro l
  induction l with
  | nil => intro k _; simp [dremove, dkeys]
  | cons kv rest ih =>
    intro k hnd
    by_cases hk : kv.1 = k
    · simp only [dremove, if_pos hk]
      exact (List.nodup_cons.mp hnd).2
    · simp only [dremove, if_neg hk, dkeys_cons, List.nodup_cons]
      refine ⟨fun hm => (List.nodup_cons.mp hnd).1 (mem_dkeys_dremove rest k kv.1 hm), ?_⟩
      exact ih k (List.nodup_cons.mp hnd).2

theorem not_mem_dkeys_dremove {α : Type} :
    ∀ (l : List (String × α)) (k : String), (dkeys l).Nodup →
      k ∉ dkeys (dremove l k) := by
  intro l
  induction l with
  | nil => intro k _ h; cases h
  | cons kv rest ih =>
    intro k hnd
    by_cases hk : kv.1 = k
    · simp only [dremove, if_pos hk]
      intro hm
      exact (List.nodup_cons.mp hnd).1 (hk ▸ hm)
    · simp only [dremove, if_neg hk, dkeys_cons]
      intro hm
      cases List.mem_cons.mp hm with
      | inl h1 => exact hk h1.symm
      | inr h1 => exact ih k (List.nodup_cons.mp hnd).2 h1

theorem dremove_absent {α : Type} :
    ∀ (l : List (String × α)) (k : String), k ∉ dkeys l → dremove l k = l := by
  intro l
  induction l with
  | nil => intro k _; rfl
  | cons kv rest ih =>
    intro k h
    rw [dkeys_cons] at h
    have hne : kv.1 ≠ k := fun he => h (he ▸ List.mem_cons_self kv.1 (dkeys rest))
    simp only [dremove, if_neg hne]
    rw [ih k (fun hm => h (List.mem_cons_of_mem _ hm))]

theorem fold_dremove_subset :
    ∀ (xs cs : List (String × Column)) (k : String),
      k ∈ dkeys (xs.foldl (fun a kv => dremove a kv.1) cs) → k ∈ dkeys cs := by
  intro xs
  induction xs with
  | nil => intro cs k h; exact h
  | cons x rest ih =>
    intro cs k h
    rw [List.foldl_cons] at h
    exact mem_dkeys_dremove cs x.1 k (ih (dremove cs x.1) k h)

theorem fold_dremove_nodup :
    ∀ (xs cs : List (String × Column)), (dkeys cs).Nodup →
      (dkeys (xs.foldl (fun a kv => dremove a kv.1) cs)).Nodup := by
  intro xs
  induction xs with
  | nil => intro cs h; exact h
  | cons x rest ih =>
    intro cs h
    rw [List.foldl_cons]
    exact ih (dremove cs x.1) (dkeys_dremove_nodup cs x.1 h)

theorem fold_dremove_not_mem :
    ∀ (xs cs : List (String × Column)), (dkeys cs).Nodup →
      ∀ k ∈ dkeys xs, k ∉ dkeys (xs.foldl (fun a kv => dremove a kv.1) cs) := by
  intro xs
  induction xs with
  | nil => intro cs _ k hk; cases hk
  | cons x rest ih =>
    intro cs hnd k hk
    rw [List.foldl_cons]
    rw [dkeys_cons] at hk
    cases List.mem_cons.mp hk with
    | inl h1 =>
      intro hm
      have h2 := fold_dremove_subset rest (dremove cs x.1) k hm
      rw [h1] at h2
      exact not_mem_dkeys_dremove cs x.1 hnd h2
    | inr h1 => exact ih (dremove cs x.1) (dkeys_dremove_nodup cs x.1 hnd) k h1

theorem fold_dremove_absent :
    ∀ (xs cs : List (String × Column)), (∀ k ∈ dkeys xs, k ∉ dkeys cs) →
      xs.foldl (fun a kv => dremove a kv.1) cs = cs := by
  intro xs
  induction xs with
  | nil => intro cs _; rfl
  | cons x rest ih =>
    intro cs h
    rw [List.foldl_cons,
      dremove_absent cs x.1 (h x.1 (by rw [dkeys_cons]; exact List.mem_cons_self _ _))]
    exact ih cs (fun k hk => h k (by rw [dkeys_cons]; exact List.mem_cons_of_mem _ hk))

theorem titlesFold_cons (m : String × Column) (M : List (String × Column))
    (ts : List (String × String)) :
    titlesFold (m :: M) ts = titlesFold M (dset ts m.1 m.2.title) := rfl

theorem titlesFold_nodup (M : List (String × Column)) :
    ∀ (ts : List (String × String)), (dkeys ts).Nodup →
      (dkeys (titlesFold M ts)).Nodup := by
  intro ts h
  unfold titlesFold
  apply foldl_preserves (fun a => (dkeys a).Nodup)
  · intro s iv hs
    exact dkeys_dset_nodup _ _ _ hs
  · exact h

theorem titlesFold_mem_preserve (M : List (String × Column)) :
    ∀ (ts : List (String × String)) (k : String) (v : String),
      (k, v) ∈ ts → k ∉ dkeys M → (k, v) ∈ titlesFold M ts := by
  induction M with
  | nil => intro ts k v h _; exact h
  | cons m M' ih =>
    intro ts k v h hk
    rw [titlesFold_cons]
    rw [dkeys_cons] at hk
    have hne : k ≠ m.1 := fun he => hk (he ▸ List.mem_cons_self m.1 (dkeys M'))
    exact ih _ k v (dset_mem_ne ts k v m.1 m.2.title h hne)
      (fun hm => hk (List.mem_cons_of_mem _ hm))

theorem titlesFold_mem (M : List (String × Column)) (hnd : (dkeys M).Nodup) :
    ∀ (ts : List (String × String)) (kv : String × Column), kv ∈ M →
      (kv.1, kv.2.title) ∈ titlesFold M ts := by
  induction M with
  | nil => intro ts kv h; cases h
  | cons m M' ih =>
    intro ts kv h
    rw [titlesFold_cons]
    cases List.mem_cons.mp h with
    | inl h1 =>
      rw [h1]
      exact titlesFold_mem_preserve M' _ m.1 m.2.title (dset_mem_self ts m.1 m.2.title)
        (List.nodup_cons.mp (by rw [dkeys_cons] at hnd; exact hnd)).1
    | inr h1 =>
      exact ih (List.nodup_cons.mp (by rw [dkeys_cons] at hnd; exact hnd)).2 _ kv h1

theorem titlesFold_present (M : List (String × Column)) :
    ∀ (ts : List (String × String)),
      (∀ kv ∈ M, (kv.1, kv.2.title) ∈ ts) → (dkeys ts).Nodup →
      titlesFold M ts = ts := by
  induction M with
  | nil => intro ts _ _; rfl
  | cons m M' ih =>
    intro ts h hnd
    rw [titlesFold_cons,
      dset_mem_same ts m.1 m.2.title (h m (List.mem_cons_self m M')) hnd]
    exact ih ts (fun kv hkv => h kv (List.mem_cons_of_mem m hkv)) hnd

theorem iakInsert :
    ∀ (M : List (String × Column)) (d : List (String × Column)) (ts : List (String × String)),
      (∀ k ∈ dkeys M, k ∉ dkeys d) → (dkeys M).Nodup →
      M.foldl (fun st2 iv => (dset st2.1 iv.1 iv.2, dset st2.2 iv.1 iv.2.title)) (d, ts) =
        (d ++ M, titlesFold M ts) := by
  intro M
  induction M with
  | nil => intro d ts _ _; simp [titlesFold]
  | cons m M' ih =>
    intro d ts hf hnd
    rw [List.foldl_cons]
    show M'.foldl _ (dset d m.1 m.2, dset ts m.1 m.2.title) = _
    have hm1 : m.1 ∉ dkeys d :=
      hf m.1 (by rw [dkeys_cons]; exact List.mem_cons_self _ _)
    rw [dset_fresh d m.1 m.2 hm1]
    rw [dkeys_cons] at hnd
    have hfresh2 : ∀ k ∈ dkeys M', k ∉ dkeys (d ++ [(m.1, m.2)]) := by
      intro k hk
      rw [dkeys_append]
      intro hm
      cases List.mem_append.mp hm with
      | inl h1 => exact hf k (by rw [dkeys_cons]; exact List.mem_cons_of_mem _ hk) h1
      | inr h1 =>
        have hk1 : k = m.1 := by simpa [dkeys] using h1
        exact (List.nodup_cons.mp hnd).1 (hk1 ▸ hk)
    rw [ih (d ++ [(m.1, m.2)]) (dset ts m.1 m.2.title) hfresh2 (List.nodup_cons.mp hnd).2]
    rw [titlesFold_cons]
    simp

theorem iakFold_append (N : List (String × Column)) (lk : String) :
    ∀ (xs d : List (String × Column)) (ts : List (String × String)),
      (∀ k ∈ dkeys xs, k ∉ dkeys d) → (dkeys xs).Nodup → lk ∉ dkeys xs →
      xs.foldl (iakStep N lk) (d, ts) = (d ++ xs, ts) := by
  intro xs
  induction xs with
  | nil => intro d ts _ _ _; simp
  | cons x rest ih =>
    intro d ts hf hnd hlk
    rw [List.foldl_cons]
    have hx : x.1 ≠ lk := by
      intro he
      apply hlk
      rw [dkeys_cons, ← he]
      exact List.mem_cons_self _ _
    have hstep : iakStep N lk (d, ts) x = (dset d x.1 x.2, ts) := by
      simp only [iakStep, if_neg hx]
    rw [hstep,
      dset_fresh d x.1 x.2 (hf x.1 (by rw [dkeys_cons]; exact List.mem_cons_self _ _))]
    rw [dkeys_cons] at hnd hlk
    have hfresh2 : ∀ k ∈ dkeys rest, k ∉ dkeys (d ++ [(x.1, x.2)]) := by
      intro k hk
      rw [dkeys_append]
      intro hm
      cases List.mem_append.mp hm with
      | inl h1 => exact hf k (by rw [dkeys_cons]; exact List.mem_cons_of_mem _ hk) h1
      | inr h1 =>
        have hk1 : k = x.1 := by simpa [dkeys] using h1
        exact (List.nodup_cons.mp hnd).1 (hk1 ▸ hk)
    rw [ih (d ++ [(x.1, x.2)]) ts hfresh2 (List.nodup_cons.mp hnd).2
      (fun hm => hlk (List.mem_cons_of_mem _ hm))]
    simp

theorem iakFold_present (N : List (String × Column)) (lk : String) :
    ∀ (xs d : List (String × Column)) (ts : List (String × String)),
      (∀ p ∈ xs, p ∈ d) → (dkeys d).Nodup → lk ∉ dkeys xs →
      xs.foldl (iakStep N lk) (d, ts) = (d, ts) := by
  intro xs
  induction xs with
  | nil => intro d ts _ _ _; rfl
  | cons x rest ih =>
    intro d ts hp hnd hlk
    rw [List.foldl_cons]
    have hx : x.1 ≠ lk := by
      intro he
      apply hlk
      rw [dkeys_cons, ← he]
      exact List.mem_cons_self _ _
    have hmem : (x.1, x.2) ∈ d := by
      rw [Prod.mk.eta]
      exact hp x (List.mem_cons_self x rest)
    have hstep : iakStep N lk (d, ts) x = (d, ts) := by
      simp only [iakStep, if_neg hx]
      rw [dset_mem_same d x.1 x.2 hmem hnd]
    rw [hstep]
    rw [dkeys_cons] at hlk
    exact ih d ts (fun p hpm => hp p (List.mem_cons_of_mem _ hpm)) hnd
      (fun hm => hlk (List.mem_cons_of_mem _ hm))

theorem insert_after_key_split (N : List (String × Column)) (lk : String)
    (P Q : List (String × Column)) (v : Column) (titles : List (String × String))
    (hPlk : lk ∉ dkeys P)
    (hnd : (dkeys (P ++ (lk, v) :: Q)).Nodup)
    (hNnd : (dkeys N).Nodup)
    (hfresh : ∀ k ∈ dkeys N, k ∉ dkeys (P ++ (lk, v) :: Q))
    (hlkN : lk ∉ dkeys N) :
    insert_after_key (P ++ (lk, v) :: Q) N lk titles =
      (P ++ (lk, v) :: (N ++ Q), titlesFold N titles) := by
  have hdk : dkeys (P ++ (lk, v) :: Q) = dkeys P ++ lk :: dkeys Q := by
    rw [dkeys_append, dkeys_cons]
  rw [hdk] at hnd
  have hndP : (dkeys P).Nodup := (List.nodup_append.mp hnd).1
  have hndQ : (dkeys Q).Nodup := (List.nodup_cons.mp (List.nodup_append.mp hnd).2.1).2
  have hlkQ : lk ∉ dkeys Q := (List.nodup_cons.mp (List.nodup_append.mp hnd).2.1).1
  have hdisj : ∀ a ∈ dkeys P, a ∉ lk :: dkeys Q := (List.nodup_append.mp hnd).2.2
  unfold insert_after_key
  rw [List.foldl_append]
  rw [iakFold_append N lk P [] titles (by intro k _ h; simp [dkeys] at h) hndP hPlk]
  rw [List.nil_append, List.foldl_cons]
  have hstep : iakStep N lk (P, titles) (lk, v) =
      N.foldl (fun st2 iv => (dset st2.1 iv.1 iv.2, dset st2.2 iv.1 iv.2.title))
        (dset P lk v, titles) := by
    simp [iakStep]
  rw [hstep, dset_fresh P lk v hPlk]
  have hfreshN : ∀ k ∈ dkeys N, k ∉ dkeys (P ++ [(lk, v)]) := by
    intro k hk
    rw [dkeys_append]
    intro hm
    cases List.mem_append.mp hm with
    | inl h1 => exact hfresh k hk (by rw [hdk]; exact List.mem_append_left _ h1)
    | inr h1 =>
      have hk1 : k = lk := by simpa [dkeys] using h1
      exact hlkN (hk1 ▸ hk)
  rw [iakInsert N (P ++ [(lk, v)]) titles hfreshN hNnd]
  have hQfresh : ∀ k ∈ dkeys Q, k ∉ dkeys (P ++ [(lk, v)] ++ N) := by
    intro k hk
    rw [dkeys_append, dkeys_append]
    intro hm
    rcases List.mem_append.mp hm with hm1 | hm2
    · rcases List.mem_append.mp hm1 with hm3 | hm4
      · exact hdisj k hm3 (List.mem_cons_of_mem _ hk)
      · have hk1 : k = lk := by simpa [dkeys] using hm4
        exact hlkQ (hk1 ▸ hk)
    · exact hfresh k hm2 (by rw [hdk]; exact List.mem_append_right _ (List.mem_cons_of_mem _ hk))
  rw [iakFold_append N lk Q (P ++ [(lk, v)] ++ N) (titlesFold N titles) hQfresh hndQ hlkQ]
  simp

theorem insert_after_key_fixed (N : List (String × Column)) (lk : String)
    (P Q : List (String × Column)) (v : Column) (ts2 : List (String × String))
    (hPlk : lk ∉ dkeys P)
    (hnd : (dkeys (P ++ (lk, v) :: Q)).Nodup)
    (hNnd : (dkeys N).Nodup)
    (hfresh : ∀ k ∈ dkeys N, k ∉ dkeys (P ++ (lk, v) :: Q))
    (hlkN : lk ∉ dkeys N)
    (htm : ∀ kv ∈ N, (kv.1, kv.2.title) ∈ ts2)
    (htnd : (dkeys ts2).Nodup) :
    insert_after_key (P ++ (lk, v) :: (N ++ Q)) N lk ts2 =
      (P ++ (lk, v) :: (N ++ Q), ts2) := by
  have hdk : dkeys (P ++ (lk, v) :: Q) = dkeys P ++ lk :: dkeys Q := by
    rw [dkeys_append, dkeys_cons]
  rw [hdk] at hnd
  have hndP : (dkeys P).Nodup := (List.nodup_append.mp hnd).1
  have hndQ : (dkeys Q).Nodup := (List.nodup_cons.mp (List.nodup_append.mp hnd).2.1).2
  have hlkQ : lk ∉ dkeys Q := (List.nodup_cons.mp (List.nodup_append.mp hnd).2.1).1
  have hdisj : ∀ a ∈ dkeys P, a ∉ lk :: dkeys Q := (List.nodup_append.mp hnd).2.2
  have hfP : ∀ k ∈ dkeys N, k ∉ dkeys P := fun k hk hm =>
    hfresh k hk (by rw [hdk]; exact List.mem_append_left _ hm)
  have hfQ : ∀ k ∈ dkeys N, k ∉ dkeys Q := fun k hk hm =>
    hfresh k hk (by rw [hdk]; exact List.mem_append_right _ (List.mem_cons_of_mem _ hm))
  unfold insert_after_key
  rw [List.foldl_append]
  rw [iakFold_append N lk P [] ts2 (by intro k _ h; simp [dkeys] at h) hndP hPlk]
  rw [List.nil_append, List.foldl_cons]
  have hstep : iakStep N lk (P, ts2) (lk, v) =
      N.foldl (fun st2 iv => (dset st2.1 iv.1 iv.2, dset st2.2 iv.1 iv.2.title))
        (dset P lk v, ts2) := by
    simp [iakStep]
  rw [hstep, dset_fresh P lk v hPlk]
  have hfreshN : ∀ k ∈ dkeys N, k ∉ dkeys (P ++ [(lk, v)]) := by
    intro k hk
    rw [dkeys_append]
    intro hm
    cases List.mem_append.mp hm with
    | inl h1 => exact hfP k hk h1
    | inr h1 =>
      have hk1 : k = lk := by simpa [dkeys] using h1
      exact hlkN (hk1 ▸ hk)
  rw [iakInsert N (P ++ [(lk, v)]) ts2 hfreshN hNnd]
  rw [titlesFold_present N ts2 htm htnd]
  rw [List.foldl_append]
  have hndD : (dkeys (P ++ [(lk, v)] ++ N)).Nodup := by
    rw [dkeys_append, dkeys_append]
    rw [List.nodup_append]
    refine ⟨?_, ?_, ?_⟩
    · rw [List.nodup_append]
      refine ⟨hndP, by simp [dkeys], ?_⟩
      intro a ha hb
      have ha1 : a = lk := by simpa [dkeys] using hb
      exact hPlk (ha1 ▸ ha)
    · exact hNnd
    · intro a ha hb
      rcases List.mem_append.mp ha with h1 | h2
      · exact hfP a hb h1
      · have ha1 : a = lk := by simpa [dkeys] using h2
        exact hlkN (ha1 ▸ hb)
  rw [iakFold_present N lk N (P ++ [(lk, v)] ++ N) ts2
    (fun p hp => List.mem_append_right _ hp) hndD hlkN]
  have hQfresh : ∀ k ∈ dkeys Q, k ∉ dkeys (P ++ [(lk, v)] ++ N) := by
    intro k hk
    rw [dkeys_append, dkeys_append]
    intro hm
    rcases List.mem_append.mp hm with hm1 | hm2
    · rcases List.mem_append.mp hm1 with hm3 | hm4
      · exact hdisj k hm3 (List.mem_cons_of_mem _ hk)
      · have hk1 : k = lk := by simpa [dkeys] using hm4
        exact hlkQ (hk1 ▸ hk)
    · exact hfQ k hm2 hk
  rw [iakFold_append N lk Q (P ++ [(lk, v)] ++ N) ts2 hQfresh hndQ hlkQ]
  simp

theorem insert_after_key_no_lk (N : List (String × Column)) (lk : String)
    (cols : List (String × Column)) (titles : List (String × String))
    (hlk : lk ∉ dkeys cols) (hnd : (dkeys cols).Nodup) :
    insert_after_key cols N lk titles = (cols, titles) := by
  unfold insert_after_key
  have h := iakFold_append N lk cols [] titles (by intro k _ h; simp [dkeys] at h) hnd hlk
  simpa using h

theorem gp_congr (t1 t2 : Table) (h1 : t1.arrays = t2.arrays)
    (h2 : t1.is_root = t2.is_root) (abs_path path : String) (sp : Bool)
    (sep : String) (idx : Option String) :
    get_pointer t1 abs_path path sp sep idx = get_pointer t2 abs_path path sp sep idx := by
  simp only [get_pointer, Table.is_array, h1, h2]

theorem newColsOf_congr (t1 t2 : Table) (h1 : t1.arrays = t2.arrays)
    (h2 : t1.is_root = t2.is_root) (path bp zp sep : String) (n : Nat)
    (Z : List (String × Column)) :
    newColsOf t1 path bp zp sep n Z = newColsOf t2 path bp zp sep n Z := by
  have hg : ∀ (a p : String) (s : Bool),
      get_pointer t1 a p s = get_pointer t2 a p s :=
    fun a p s => gp_congr t1 t2 h1 h2 a p s "/" none
  simp only [newColsOf, hg]

theorem zeroColsOf_insert (zp sep : String) (P Q N : List (String × Column))
    (lk : String) (v : Column)
    (hNf : ∀ kv ∈ N, zeroPred zp sep kv = false) :
    zeroColsOf (P ++ (lk, v) :: (N ++ Q)) zp sep =
      zeroColsOf (P ++ (lk, v) :: Q) zp sep := by
  unfold zeroColsOf
  have e1 : P ++ (lk, v) :: (N ++ Q) = ((P ++ [(lk, v)]) ++ N) ++ Q := by simp
  have e2 : P ++ (lk, v) :: Q = (P ++ [(lk, v)]) ++ Q := by simp
  rw [e1, e2, List.filter_append, List.filter_append, List.filter_append]
  have hN0 : List.filter (zeroPred zp sep) N = [] := by
    rw [List.filter_eq_nil]
    intro a ha
    simp [hNf a ha]
  rw [hN0]
  simp only [List.append_nil, List.filter_append]

theorem zeroColsOf_sublist_keys (cc : List (String × Column)) (zp sep : String) :
    ∀ k ∈ dkeys (zeroColsOf cc zp sep), k ∈ dkeys cc := by
  intro k hk
  unfold zeroColsOf at hk
  obtain ⟨p, hp, he⟩ := List.mem_map.mp hk
  exact he ▸ List.mem_map_of_mem Prod.fst (List.mem_of_mem_filter hp)

theorem withCols_mk (dd : TableData) (pp : Option Table)
    (a b : List (String × Column)) (c : List (String × String)) (pq : Option Table) :
    Table.withCols (.mk dd pp) a b c pq =
      Table.mk { dd with columns := a, combined_columns := b, titles := c } pq := rfl

theorem recalcLocalOK_spec (t : Table) (path abs_path key : String) (n : Nat)
    (sep : String) (h : recalcLocalOK t path abs_path key n sep = true) :
    (dkeys t.combined_columns).Nodup ∧ (dkeys t.columns).Nodup ∧
    (dkeys t.titles).Nodup ∧
    (∀ kv ∈ rcN t path abs_path key sep n, kv.1 ∉ dkeys t.combined_columns) ∧
    (∀ kv ∈ rcN t path abs_path key sep n, kv.1 ∉ dkeys t.columns) ∧
    (∀ kv ∈ rcN t path abs_path key sep n,
      zeroPred (rcZP t path abs_path key sep) sep kv = false) := by
  unfold recalcLocalOK at h
  simp only [Bool.and_eq_true, List.all_eq_true, decide_eq_true_eq,
    Bool.not_eq_true'] at h
  obtain ⟨⟨⟨⟨⟨h1, h2⟩, h3⟩, h4⟩, h5⟩, h6⟩ := h
  refine ⟨h1, h2, h3, ?_, ?_, h6⟩
  · intro kv hkv
    exact (dhas_eq_false _ _).mp (h4 kv hkv)
  · intro kv hkv
    exact (dhas_eq_false _ _).mp (h5 kv hkv)

theorem recalculate_headers_eq (d : TableData) (parent : Option Table)
    (path abs_path key : String) (item : List Json) (ssp : Bool) (sep : String) :
    recalculate_headers (.mk d parent) path abs_path key item ssp sep =
      (if (rcN (.mk d parent) path abs_path key sep item.length).isEmpty then
        Table.mk d parent
       else
        Table.withCols (.mk d parent)
          (if ssp then
             ((rcZ (.mk d parent) path abs_path key sep ++
                 rcN (.mk d parent) path abs_path key sep item.length).foldl
               (fun cs kv => dremove cs kv.1) d.columns,
              (insert_after_key d.combined_columns
                (rcN (.mk d parent) path abs_path key sep item.length)
                (rcLK (.mk d parent) path abs_path key sep) d.titles).2)
           else
             insert_after_key d.columns
               (rcN (.mk d parent) path abs_path key sep item.length)
               (rcLK (.mk d parent) path abs_path key sep)
               (insert_after_key d.combined_columns
                 (rcN (.mk d parent) path abs_path key sep item.length)
                 (rcLK (.mk d parent) path abs_path key sep) d.titles).2).1
          (insert_after_key d.combined_columns
            (rcN (.mk d parent) path abs_path key sep item.length)
            (rcLK (.mk d parent) path abs_path key sep) d.titles).1
          (if ssp then
             ((rcZ (.mk d parent) path abs_path key sep ++
                 rcN (.mk d parent) path abs_path key sep item.length).foldl
               (fun cs kv => dremove cs kv.1) d.columns,
              (insert_after_key d.combined_columns
                (rcN (.mk d parent) path abs_path key sep item.length)
                (rcLK (.mk d parent) path abs_path key sep) d.titles).2)
           else
             insert_after_key d.columns
               (rcN (.mk d parent) path abs_path key sep item.length)
               (rcLK (.mk d parent) path abs_path key sep)
               (insert_after_key d.combined_columns
                 (rcN (.mk d parent) path abs_path key sep item.length)
                 (rcLK (.mk d parent) path abs_path key sep) d.titles).2).2
          (Option.map
            (fun p => recalculate_headers p path abs_path key item ssp sep) parent)) := by
  cases parent with
  | none =>
    conv_lhs => unfold recalculate_headers
    simp only [rcN, rcZ, rcZP, rcBP, rcLK, Table.combined_columns,
      Table.columns, Table.titles, Table.data, Option.map_none']
  | some p =>
    conv_lhs => unfold recalculate_headers
    simp only [rcN, rcZ, rcZP, rcBP, rcLK, Table.combined_columns,
      Table.columns, Table.titles, Table.data, Option.map_some']

theorem rcNZ_congr (d1 : TableData) (p1 : Option Table) (d2 : TableData)
    (p2 : Option Table) (path abs_path key sep : String) (n : Nat)
    (harr : d1.arrays = d2.arrays) (hroot : p1.isNone = p2.isNone)
    (hzc : zeroColsOf d1.combined_columns (rcZP (.mk d2 p2) path abs_path key sep) sep =
      zeroColsOf d2.combined_columns (rcZP (.mk d2 p2) path abs_path key sep) sep) :
    rcZP (.mk d1 p1) path abs_path key sep = rcZP (.mk d2 p2) path abs_path key sep ∧
    rcZ (.mk d1 p1) path abs_path key sep = rcZ (.mk d2 p2) path abs_path key sep ∧
    rcN (.mk d1 p1) path abs_path key sep n = rcN (.mk d2 p2) path abs_path key sep n ∧
    rcLK (.mk d1 p1) path abs_path key sep = rcLK (.mk d2 p2) path abs_path key sep := by
  have harr2 : (Table.mk d1 p1).arrays = (Table.mk d2 p2).arrays := by
    simp only [Table.arrays, Table.data, harr]
  have hroot2 : (Table.mk d1 p1).is_root = (Table.mk d2 p2).is_root := by
    simp only [Table.is_root, Table.parent, hroot]
  have hz : rcZP (.mk d1 p1) path abs_path key sep = rcZP (.mk d2 p2) path abs_path key sep := by
    unfold rcZP
    exact gp_congr _ _ harr2 hroot2 _ _ _ "/" none
  have hzz : rcZ (.mk d1 p1) path abs_path key sep = rcZ (.mk d2 p2) path abs_path key sep := by
    unfold rcZ
    simp only [Table.combined_columns, Table.data]
    rw [hz]
    exact hzc
  refine ⟨hz, hzz, ?_, ?_⟩
  · unfold rcN
    rw [hz, hzz]
    exact newColsOf_congr _ _ harr2 hroot2 _ _ _ _ _ _
  · unfold rcLK
    rw [hzz]

theorem recalc_step (d : TableData) (parent : Option Table) (path abs_path key : String)
    (item : List Json) (ssp : Bool) (sep : String)
    (hloc : recalcLocalOK (.mk d parent) path abs_path key item.length sep = true)
    (hpar : ∀ p, parent = some p →
        recalculate_headers (recalculate_headers p path abs_path key item ssp sep)
            path abs_path key item ssp sep =
          recalculate_headers p path abs_path key item ssp sep) :
    recalculate_headers (recalculate_headers (.mk d parent) path abs_path key item ssp sep)
        path abs_path key item ssp sep =
      recalculate_headers (.mk d parent) path abs_path key item ssp sep := by
  obtain ⟨hccN, hcoN, htiN, hfcc, hfco, hzf⟩ :=
    recalcLocalOK_spec (.mk d parent) path abs_path key item.length sep hloc
  simp only [Table.combined_columns, Table.columns, Table.titles,
    Table.data] at hccN hcoN htiN hfcc hfco
  by_cases hN0 : (rcN (Table.mk d parent) path abs_path key sep item.length).isEmpty = true
  · rw [recalculate_headers_eq d parent path abs_path key item ssp sep, if_pos hN0,
      recalculate_headers_eq d parent path abs_path key item ssp sep, if_pos hN0]
  · have hne : (rcN (Table.mk d parent) path abs_path key sep item.length).isEmpty = false := by
      revert hN0
      cases (rcN (Table.mk d parent) path abs_path key sep item.length).isEmpty <;> simp
    have hNne : rcN (Table.mk d parent) path abs_path key sep item.length ≠ [] := by
      intro h
      rw [h] at hne
      simp at hne
    have hZne : rcZ (Table.mk d parent) path abs_path key sep ≠ [] := by
      intro h
      apply hNne
      unfold rcN
      rw [h]
      exact newColsOf_nil _ _ _ _ _ _
    have hkeysne : dkeys (rcZ (Table.mk d parent) path abs_path key sep) ≠ [] := by
      intro h
      apply hZne
      cases hc : rcZ (Table.mk d parent) path abs_path key sep with
      | nil => rfl
      | cons a l => rw [hc] at h; simp [dkeys] at h
    have hlkZ : rcLK (Table.mk d parent) path abs_path key sep ∈ dkeys (rcZ (Table.mk d parent) path abs_path key sep) := by
      unfold rcLK
      exact getLastD_mem _ hkeysne
    have hlkcc : rcLK (Table.mk d parent) path abs_path key sep ∈ dkeys d.combined_columns := by
      apply zeroColsOf_sublist_keys d.combined_columns (rcZP (Table.mk d parent) path abs_path key sep) sep
      unfold rcZ at hlkZ
      simp only [Table.combined_columns, Table.data] at hlkZ
      exact hlkZ
    have hNnd : (dkeys (rcN (Table.mk d parent) path abs_path key sep item.length)).Nodup := by
      unfold rcN
      exact newColsOf_nodup _ _ _ _ _ _ _
    have hNfk : ∀ k ∈ dkeys (rcN (Table.mk d parent) path abs_path key sep item.length), k ∉ dkeys d.combined_columns := by
      intro k hk
      obtain ⟨kv, hkv, he⟩ := List.mem_map.mp hk
      exact he ▸ hfcc kv hkv
    have hNfkco : ∀ k ∈ dkeys (rcN (Table.mk d parent) path abs_path key sep item.length), k ∉ dkeys d.columns := by
      intro k hk
      obtain ⟨kv, hkv, he⟩ := List.mem_map.mp hk
      exact he ▸ hfco kv hkv
    have hlkN : rcLK (Table.mk d parent) path abs_path key sep ∉ dkeys (rcN (Table.mk d parent) path abs_path key sep item.length) := fun h => hNfk _ h hlkcc
    obtain ⟨P, v, Q, hcc, hPlk⟩ := exists_split_first d.combined_columns (rcLK (Table.mk d parent) path abs_path key sep) hlkcc
    have hccNd2 : (dkeys (P ++ (rcLK (Table.mk d parent) path abs_path key sep, v) :: Q)).Nodup := by
      rw [← hcc]
      exact hccN
    have hfresh2 : ∀ k ∈ dkeys (rcN (Table.mk d parent) path abs_path key sep item.length), k ∉ dkeys (P ++ (rcLK (Table.mk d parent) path abs_path key sep, v) :: Q) := by
      intro k hk
      rw [← hcc]
      exact hNfk k hk
    have hp1 : insert_after_key d.combined_columns (rcN (Table.mk d parent) path abs_path key sep item.length) (rcLK (Table.mk d parent) path abs_path key sep) d.titles =
        (P ++ (rcLK (Table.mk d parent) path abs_path key sep, v) :: (rcN (Table.mk d parent) path abs_path key sep item.length ++ Q), titlesFold (rcN (Table.mk d parent) path abs_path key sep item.length) d.titles) := by
      conv_lhs => rw [hcc]
      exact insert_after_key_split _ _ P Q v d.titles hPlk hccNd2 hNnd hfresh2 hlkN
    have hzc : zeroColsOf (P ++ (rcLK (Table.mk d parent) path abs_path key sep, v) :: (rcN (Table.mk d parent) path abs_path key sep item.length ++ Q)) (rcZP (Table.mk d parent) path abs_path key sep) sep =
        zeroColsOf d.combined_columns (rcZP (Table.mk d parent) path abs_path key sep) sep := by
      rw [zeroColsOf_insert (rcZP (Table.mk d parent) path abs_path key sep) sep P Q (rcN (Table.mk d parent) path abs_path key sep item.length) (rcLK (Table.mk d parent) path abs_path key sep) v hzf, ← hcc]
    have htm1 : ∀ kv ∈ (rcN (Table.mk d parent) path abs_path key sep item.length), (kv.1, kv.2.title) ∈ titlesFold (rcN (Table.mk d parent) path abs_path key sep item.length) d.titles :=
      titlesFold_mem (rcN (Table.mk d parent) path abs_path key sep item.length) hNnd d.titles
    have htnd1 : (dkeys (titlesFold (rcN (Table.mk d parent) path abs_path key sep item.length) d.titles)).Nodup :=
      titlesFold_nodup (rcN (Table.mk d parent) path abs_path key sep item.length) d.titles htiN
    cases ssp with
    | true =>
      rw [recalculate_headers_eq d parent path abs_path key item true sep,
        if_neg (by simp [hne])]
      rw [if_pos rfl]
      simp only [hp1]
      rw [withCols_mk]
      obtain ⟨hz2, hzz2, hn2, hlk2⟩ := rcNZ_congr
        ({ d with
              columns := ((rcZ (Table.mk d parent) path abs_path key sep ++ rcN (Table.mk d parent) path abs_path key sep item.length).foldl (fun cs kv => dremove cs kv.1) d.columns),
              combined_columns := P ++ (rcLK (Table.mk d parent) path abs_path key sep, v) :: (rcN (Table.mk d parent) path abs_path key sep item.length ++ Q),
              titles := titlesFold (rcN (Table.mk d parent) path abs_path key sep item.length) d.titles } : TableData)
        (Option.map
          (fun p => recalculate_headers p path abs_path key item true sep) parent)
        d parent path abs_path key sep item.length rfl
        (by cases parent with
            | none => rfl
            | some p => rfl)
        hzc
      rw [recalculate_headers_eq]
      simp only [hn2, hlk2, hzz2]
      rw [if_neg (by simp [hne])]
      have hq1 : insert_after_key (P ++ (rcLK (Table.mk d parent) path abs_path key sep, v) :: (rcN (Table.mk d parent) path abs_path key sep item.length ++ Q)) (rcN (Table.mk d parent) path abs_path key sep item.length) (rcLK (Table.mk d parent) path abs_path key sep) (titlesFold (rcN (Table.mk d parent) path abs_path key sep item.length) d.titles) = (P ++ (rcLK (Table.mk d parent) path abs_path key sep, v) :: (rcN (Table.mk d parent) path abs_path key sep item.length ++ Q), titlesFold (rcN (Table.mk d parent) path abs_path key sep item.length) d.titles) :=
        insert_after_key_fixed (rcN (Table.mk d parent) path abs_path key sep item.length) (rcLK (Table.mk d parent) path abs_path key sep) P Q v (titlesFold (rcN (Table.mk d parent) path abs_path key sep item.length) d.titles) hPlk hccNd2 hNnd hfresh2 hlkN
          htm1 htnd1
      simp only [hq1]
      have hrm2 : (rcZ (Table.mk d parent) path abs_path key sep ++ rcN (Table.mk d parent) path abs_path key sep item.length).foldl (fun cs kv => dremove cs kv.1) ((rcZ (Table.mk d parent) path abs_path key sep ++ rcN (Table.mk d parent) path abs_path key sep item.length).foldl (fun cs kv => dremove cs kv.1) d.columns) = ((rcZ (Table.mk d parent) path abs_path key sep ++ rcN (Table.mk d parent) path abs_path key sep item.length).foldl (fun cs kv => dremove cs kv.1) d.columns) :=
        fold_dremove_absent _ _
          (fun k hk => fold_dremove_not_mem _ d.columns hcoN k hk)
      rw [hrm2]
      have hpp : Option.map (fun p => recalculate_headers p path abs_path key item true sep)
          (Option.map (fun p => recalculate_headers p path abs_path key item true sep) parent) =
          Option.map (fun p => recalculate_headers p path abs_path key item true sep) parent := by
        cases parent with
        | none => rfl
        | some p =>
          simp only [Option.map_some']
          exact congrArg some (hpar p rfl)
      rw [hpp]
      rw [withCols_mk]
      rfl
    | false =>
      rw [recalculate_headers_eq d parent path abs_path key item false sep,
        if_neg (by simp [hne])]
      rw [if_neg (by simp)]
      simp only [hp1]
      by_cases hlkco : (rcLK (Table.mk d parent) path abs_path key sep) ∈ dkeys d.columns
      · obtain ⟨P2, w, Q2, hco, hP2lk⟩ := exists_split_first d.columns (rcLK (Table.mk d parent) path abs_path key sep) hlkco
        have hcoNd2 : (dkeys (P2 ++ (rcLK (Table.mk d parent) path abs_path key sep, w) :: Q2)).Nodup := by
          rw [← hco]
          exact hcoN
        have hfrco2 : ∀ k ∈ dkeys (rcN (Table.mk d parent) path abs_path key sep item.length), k ∉ dkeys (P2 ++ (rcLK (Table.mk d parent) path abs_path key sep, w) :: Q2) := by
          intro k hk
          rw [← hco]
          exact hNfkco k hk
        have hp2 : insert_after_key d.columns (rcN (Table.mk d parent) path abs_path key sep item.length) (rcLK (Table.mk d parent) path abs_path key sep) (titlesFold (rcN (Table.mk d parent) path abs_path key sep item.length) d.titles) =
            (P2 ++ (rcLK (Table.mk d parent) path abs_path key sep, w) :: (rcN (Table.mk d parent) path abs_path key sep item.length ++ Q2), titlesFold (rcN (Table.mk d parent) path abs_path key sep item.length) (titlesFold (rcN (Table.mk d parent) path abs_path key sep item.length) d.titles)) := by
          conv_lhs => rw [hco]
          exact insert_after_key_split _ _ P2 Q2 w (titlesFold (rcN (Table.mk d parent) path abs_path key sep item.length) d.titles) hP2lk hcoNd2 hNnd hfrco2 hlkN
        simp only [hp2]
        rw [withCols_mk]
        obtain ⟨hz2, hzz2, hn2, hlk2⟩ := rcNZ_congr
          ({ d with
            columns := P2 ++ (rcLK (Table.mk d parent) path abs_path key sep, w) :: (rcN (Table.mk d parent) path abs_path key sep item.length ++ Q2),
              combined_columns := P ++ (rcLK (Table.mk d parent) path abs_path key sep, v) :: (rcN (Table.mk d parent) path abs_path key sep item.length ++ Q),
              titles := titlesFold (rcN (Table.mk d parent) path abs_path key sep item.length) (titlesFold (rcN (Table.mk d parent) path abs_path key sep item.length) d.titles) } : TableData)
          (Option.map
          (fun p => recalculate_headers p path abs_path key item false sep) parent)
          d parent path abs_path key sep item.length rfl
          (by cases parent with
              | none => rfl
              | some p => rfl)
          hzc
        rw [recalculate_headers_eq]
        simp only [hn2, hlk2]
        rw [if_neg (by simp [hne])]
        have htm2 : ∀ kv ∈ (rcN (Table.mk d parent) path abs_path key sep item.length), (kv.1, kv.2.title) ∈ titlesFold (rcN (Table.mk d parent) path abs_path key sep item.length) (titlesFold (rcN (Table.mk d parent) path abs_path key sep item.length) d.titles) :=
          titlesFold_mem (rcN (Table.mk d parent) path abs_path key sep item.length) hNnd (titlesFold (rcN (Table.mk d parent) path abs_path key sep item.length) d.titles)
        have htnd2 : (dkeys (titlesFold (rcN (Table.mk d parent) path abs_path key sep item.length) (titlesFold (rcN (Table.mk d parent) path abs_path key sep item.length) d.titles))).Nodup :=
          titlesFold_nodup (rcN (Table.mk d parent) path abs_path key sep item.length) (titlesFold (rcN (Table.mk d parent) path abs_path key sep item.length) d.titles) htnd1
        have hq1 : insert_after_key (P ++ (rcLK (Table.mk d parent) path abs_path key sep, v) :: (rcN (Table.mk d parent) path abs_path key sep item.length ++ Q)) (rcN (Table.mk d parent) path abs_path key sep item.length) (rcLK (Table.mk d parent) path abs_path key sep) (titlesFold (rcN (Table.mk d parent) path abs_path key sep item.length) (titlesFold (rcN (Table.mk d parent) path abs_path key sep item.length) d.titles)) = (P ++ (rcLK (Table.mk d parent) path abs_path key sep, v) :: (rcN (Table.mk d parent) path abs_path key sep item.length ++ Q), titlesFold (rcN (Table.mk d parent) path abs_path key sep item.length) (titlesFold (rcN (Table.mk d parent) path abs_path key sep item.length) d.titles)) :=
          insert_after_key_fixed (rcN (Table.mk d parent) path abs_path key sep item.length) (rcLK (Table.mk d parent) path abs_path key sep) P Q v (titlesFold (rcN (Table.mk d parent) path abs_path key sep item.length) (titlesFold (rcN (Table.mk d parent) path abs_path key sep item.length) d.titles)) hPlk hccNd2 hNnd hfresh2 hlkN
            htm2 htnd2
        simp only [hq1]
        have hq2 : insert_after_key (P2 ++ (rcLK (Table.mk d parent) path abs_path key sep, w) :: (rcN (Table.mk d parent) path abs_path key sep item.length ++ Q2)) (rcN (Table.mk d parent) path abs_path key sep item.length) (rcLK (Table.mk d parent) path abs_path key sep) (titlesFold (rcN (Table.mk d parent) path abs_path key sep item.length) (titlesFold (rcN (Table.mk d parent) path abs_path key sep item.length) d.titles)) =
            (P2 ++ (rcLK (Table.mk d parent) path abs_path key sep, w) :: (rcN (Table.mk d parent) path abs_path key sep item.length ++ Q2), titlesFold (rcN (Table.mk d parent) path abs_path key sep item.length) (titlesFold (rcN (Table.mk d parent) path abs_path key sep item.length) d.titles)) :=
          insert_after_key_fixed (rcN (Table.mk d parent) path abs_path key sep item.length) (rcLK (Table.mk d parent) path abs_path key sep) P2 Q2 w (titlesFold (rcN (Table.mk d parent) path abs_path key sep item.length) (titlesFold (rcN (Table.mk d parent) path abs_path key sep item.length) d.titles)) hP2lk hcoNd2 hNnd hfrco2 hlkN
            htm2 htnd2
        simp only [hq2]
        have hpp : Option.map
            (fun p => recalculate_headers p path abs_path key item false sep)
            (Option.map
              (fun p => recalculate_headers p path abs_path key item false sep) parent) =
            Option.map
              (fun p => recalculate_headers p path abs_path key item false sep) parent := by
          cases parent with
          | none => rfl
          | some p =>
            simp only [Option.map_some']
            exact congrArg some (hpar p rfl)
        rw [hpp]
        rw [withCols_mk]
        rfl
      · have hp2 : insert_after_key d.columns (rcN (Table.mk d parent) path abs_path key sep item.length) (rcLK (Table.mk d parent) path abs_path key sep) (titlesFold (rcN (Table.mk d parent) path abs_path key sep item.length) d.titles) = (d.columns, titlesFold (rcN (Table.mk d parent) path abs_path key sep item.length) d.titles) :=
          insert_after_key_no_lk (rcN (Table.mk d parent) path abs_path key sep item.length) (rcLK (Table.mk d parent) path abs_path key sep) d.columns (titlesFold (rcN (Table.mk d parent) path abs_path key sep item.length) d.titles) hlkco hcoN
        simp only [hp2]
        rw [withCols_mk]
        obtain ⟨hz2, hzz2, hn2, hlk2⟩ := rcNZ_congr
          ({ d with
            columns := d.columns,
              combined_columns := P ++ (rcLK (Table.mk d parent) path abs_path key sep, v) :: (rcN (Table.mk d parent) path abs_path key sep item.length ++ Q),
              titles := titlesFold (rcN (Table.mk d parent) path abs_path key sep item.length) d.titles } : TableData)
          (Option.map
          (fun p => recalculate_headers p path abs_path key item false sep) parent)
          d parent path abs_path key sep item.length rfl
          (by cases parent with
              | none => rfl
              | some p => rfl)
          hzc
        rw [recalculate_headers_eq]
        simp only [hn2, hlk2]
        rw [if_neg (by simp [hne])]
        have hq1 : insert_after_key (P ++ (rcLK (Table.mk d parent) path abs_path key sep, v) :: (rcN (Table.mk d parent) path abs_path key sep item.length ++ Q)) (rcN (Table.mk d parent) path abs_path key sep item.length) (rcLK (Table.mk d parent) path abs_path key sep) (titlesFold (rcN (Table.mk d parent) path abs_path key sep item.length) d.titles) = (P ++ (rcLK (Table.mk d parent) path abs_path key sep, v) :: (rcN (Table.mk d parent) path abs_path key sep item.length ++ Q), titlesFold (rcN (Table.mk d parent) path abs_path key sep item.length) d.titles) :=
          insert_after_key_fixed (rcN (Table.mk d parent) path abs_path key sep item.length) (rcLK (Table.mk d parent) path abs_path key sep) P Q v (titlesFold (rcN (Table.mk d parent) path abs_path key sep item.length) d.titles) hPlk hccNd2 hNnd hfresh2 hlkN
          htm1 htnd1
        simp only [hq1]
        simp only [hp2]
        have hpp : Option.map
            (fun p => recalculate_headers p path abs_path key item false sep)
            (Option.map
              (fun p => recalculate_headers p path abs_path key item false sep) parent) =
            Option.map
              (fun p => recalculate_headers p path abs_path key item false sep) parent := by
          cases parent with
          | none => rfl
          | some p =>
            simp only [Option.map_some']
            exact congrArg some (hpar p rfl)
        rw [hpp]
        rw [withCols_mk]
        rfl

theorem recalc_idem_aux :
    ∀ (n : Nat) (t : Table) (path abs_path key : String) (item : List Json)
      (ssp : Bool) (sep : String), tdepth t ≤ n →
      recalcWF t path abs_path key item.length sep = true →
      recalculate_headers (recalculate_headers t path abs_path key item ssp sep)
          path abs_path key item ssp sep =
        recalculate_headers t path abs_path key item ssp sep := by
  intro n
  induction n with
  | zero =>
    intro t path abs_path key item ssp sep hd hwf
    cases t with
    | mk d parent =>
      cases parent with
      | some p => simp [tdepth] at hd
      | none =>
        simp only [recalcWF, Bool.and_eq_true] at hwf
        exact recalc_step d none path abs_path key item ssp sep hwf.1
          (fun p hp => by cases hp)
  | succ n ih =>
    intro t path abs_path key item ssp sep hd hwf
    cases t with
    | mk d parent =>
      cases parent with
      | none =>
        simp only [recalcWF, Bool.and_eq_true] at hwf
        exact recalc_step d none path abs_path key item ssp sep hwf.1
          (fun p hp => by cases hp)
      | some p =>
        simp only [recalcWF, Bool.and_eq_true] at hwf
        apply recalc_step d (some p) path abs_path key item ssp sep hwf.1
        intro q hq
        have hq1 : q = p := (Option.some.inj hq).symm
        subst hq1
        apply ih q path abs_path key item ssp sep
        · have hdep : tdepth (Table.mk d (some q)) = tdepth q + 1 := rfl
          rw [hdep] at hd
          omega
        · exact hwf.2

/-- C9: dynamic header widening is idempotent.  For any table whose parent
chain satisfies the decidable well-formedness conditions `recalcWF`
(pairwise-distinct keys in the three ordered column dicts, clone
identifiers fresh everywhere, and no clone passing the slot-0 filter),
running `recalculate_headers` a second time with the same item list, the
same paths and the same split decision returns the first run's table
unchanged: no duplicate index-qualified slot columns are added and the
inserted clones keep their position, titles and hit counters. -/
theorem recalculate_headers_idempotent (t : Table) (path abs_path key : String)
    (item : List Json) (should_split : Bool) (sep : String)
    (hwf : recalcWF t path abs_path key item.length sep = true) :
    recalculate_headers (recalculate_headers t path abs_path key item should_split sep)
        path abs_path key item should_split sep =
      recalculate_headers t path abs_path key item should_split sep :=
  recalc_idem_aux (tdepth t) t path abs_path key item should_split sep (le_refl _) hwf

/-- A concrete root table holding a two-slot array column block and one
plain column, used to evaluate C9's well-formedness conditions and
conclusion on a closed input. -/
def C9table : Table :=
  .mk ⟨"t", ["/t"], [], [("/t/arr", 2)],
       [("/t/arr/0/id", ⟨"/t/arr/0/id", "id", "string", 3⟩),
        ("/t/x", ⟨"/t/x", "x", "string", 1⟩)],
       [("/t/arr/0/id", ⟨"/t/arr/0/id", "id", "string", 3⟩),
        ("/t/x", ⟨"/t/x", "x", "string", 1⟩)],
       [("/t/arr/0/id", "id"), ("/t/x", "x")], 1, []⟩ none

/-- Witness for C9 at a concrete table: a three-element array widens the
headers, and the second widening run returns the same table. -/
theorem recalculate_headers_idempotent_witness :
    recalcWF C9table "/t/arr" "/t" "arr"
        ([Json.obj [], Json.obj [], Json.obj []] : List Json).length "/" = true ∧
      recalculate_headers (recalculate_headers C9table "/t/arr" "/t" "arr"
          [Json.obj [], Json.obj [], Json.obj []] false "/") "/t/arr" "/t" "arr"
          [Json.obj [], Json.obj [], Json.obj []] false "/" =
        recalculate_headers C9table "/t/arr" "/t" "arr"
          [Json.obj [], Json.obj [], Json.obj []] false "/" :=
  ⟨by decide,
    recalculate_headers_idempotent C9table "/t/arr" "/t" "arr"
      [Json.obj [], Json.obj [], Json.obj []] false "/" (by decide)⟩

end Spoonbill
